import Mathlib

/-!
Verification of the overlap-resolution and stacking engines of the
plain-calendar repository.

The embedding covers:
* packages/core/src/stackUtils.ts   (priority stack engine:
  eventsOverlap, eventContains, findOverlapGroups, sortByPriority,
  calculateContainment, getStackInsets, calculateStacks)
* packages/react/src/hooks/useEventLayout.ts   (column layout engine:
  assignColumns, useEventLayout)
* the legacy stackUtils module (search-based clustering
  groupOverlappingEvents)

Modelling conventions:
* JavaScript `Date` values are modelled by their epoch-millisecond
  timestamps as `Int`; `Date` comparison and `getTime()` coincide with
  the `Int` order.  `getHours`/`getMinutes` are modelled in UTC.
* The `end` field of an event is called `stop` here because `end` is a
  Lean keyword.  Fields of `CalendarEvent` that never influence the
  engines (`title`, `color`, `data`) are omitted.
* JavaScript `Array.prototype.sort` with a comparator `c` is a stable
  sort; it is modelled by `List.insertionSort` with the relation
  `fun a b => c a b ≤ 0`, which is likewise stable.
* `Map<string, V>` objects used purely through `get`/`set` are modelled
  as functions `String → Option V` updated pointwise.  The repository
  documents duplicate event ids as producing undefined results
  (README / spec, section 3); theorems about id-keyed outputs therefore
  assume id uniqueness.
* Percentage geometry (`top`, `height`, insets) is carried through the
  embedding exactly, over `Rat` / `Int`.
-/

/-- Calendar event: id, start and end timestamps (epoch milliseconds),
all-day flag.  Mirrors the algorithmic fields of `CalendarEvent` in
packages/core/src/types.ts; `allDay` absent in TS is `false` here. -/
structure CalendarEvent where
  id : String
  start : Int
  stop : Int
  allDay : Bool
deriving DecidableEq, Repr

/-- Check if two events overlap in time (stackUtils.ts, eventsOverlap):
a.start < b.end and a.end > b.start. -/
def eventsOverlap (a b : CalendarEvent) : Bool :=
  decide (a.start < b.stop) && decide (a.stop > b.start)

/-- Check if event B is fully contained within event A's time range
(stackUtils.ts, eventContains). -/
def eventContains (container contained : CalendarEvent) : Bool :=
  decide (contained.start ≥ container.start) && decide (contained.stop ≤ container.stop)

/-- Ordering used by the clustering sorts: comparator
(a, b) => a.start.getTime() - b.start.getTime() is non-positive. -/
def StartLE : CalendarEvent → CalendarEvent → Prop := fun a b => a.start ≤ b.start

instance : DecidableRel StartLE := fun a b =>
  inferInstanceAs (Decidable (a.start ≤ b.start))

instance : IsTotal CalendarEvent StartLE := ⟨fun a b => Int.le_total a.start b.start⟩

instance : IsTrans CalendarEvent StartLE := ⟨fun _ _ _ hab hbc => le_trans hab hbc⟩

/-- Stable sort by start time, as performed at the top of
findOverlapGroups and groupOverlappingEvents. -/
def sortStart (events : List CalendarEvent) : List CalendarEvent :=
  List.insertionSort StartLE events

/-- Group of overlapping events (StackGroup in types.ts); the time
range is the record {start, end}. -/
structure StackGroup where
  events : List CalendarEvent
  rangeStart : Int
  rangeStop : Int
deriving DecidableEq, Repr

/-- Build the StackGroup record pushed by findOverlapGroups: events of
the current group together with {start: currentGroup[0].start, end:
groupEnd}.  The current group is never empty at a push site, so the
default 0 of head? is never used. -/
def mkGroup (cur : List CalendarEvent) (groupEnd : Int) : StackGroup :=
  ⟨cur, (cur.head?.elim 0 (fun e => e.start)), groupEnd⟩

/-- Sweep loop of findOverlapGroups (stackUtils.ts lines 39-70):
walk the start-sorted pending events; an event starting before the
current group end watermark joins the current group (extending the
watermark), otherwise the group is closed and a new one opened. -/
def sweepGroups : List CalendarEvent → List CalendarEvent → Int → List StackGroup
  | [], cur, groupEnd => [mkGroup cur groupEnd]
  | e :: pending, cur, groupEnd =>
    if e.start < groupEnd then
      sweepGroups pending (cur ++ [e]) (max groupEnd e.stop)
    else
      mkGroup cur groupEnd :: sweepGroups pending [e] e.stop

/-- Find groups of overlapping events (stackUtils.ts,
findOverlapGroups): sort by start time, then sweep. -/
def findOverlapGroups (events : List CalendarEvent) : List StackGroup :=
  match sortStart events with
  | [] => []
  | e0 :: rest => sweepGroups rest [e0] e0.stop

/-- Priority order used by sortByPriority: comparator
(a, b) => getPriority(a) - getPriority(b) is non-positive. -/
def PriLE (getPriority : CalendarEvent → Int) : CalendarEvent → CalendarEvent → Prop :=
  fun a b => getPriority a ≤ getPriority b

instance (getPriority : CalendarEvent → Int) : DecidableRel (PriLE getPriority) := fun a b =>
  inferInstanceAs (Decidable (getPriority a ≤ getPriority b))

instance (getPriority : CalendarEvent → Int) : IsTotal CalendarEvent (PriLE getPriority) :=
  ⟨fun a b => Int.le_total (getPriority a) (getPriority b)⟩

instance (getPriority : CalendarEvent → Int) : IsTrans CalendarEvent (PriLE getPriority) :=
  ⟨fun _ _ _ hab hbc => le_trans hab hbc⟩

/-- Sort events by priority, lower number first (stackUtils.ts,
sortByPriority); the JS sort is stable. -/
def sortByPriority (events : List CalendarEvent) (getPriority : CalendarEvent → Int) :
    List CalendarEvent :=
  List.insertionSort (PriLE getPriority) events

/-- Entry of the containment map returned by calculateContainment:
{ parentId, childIds, layer }. -/
structure ContainInfo where
  parentId : Option String
  childIds : List String
  layer : Nat
deriving DecidableEq, Repr

/-- Maps keyed by event id (TS Map<string, V> used via get/set only). -/
def SMap (α : Type) : Type := String → Option α

/-- Pointwise map update, modelling Map.prototype.set. -/
def smapSet {α : Type} (m : SMap α) (k : String) (v : α) : SMap α :=
  fun q => if q = k then some v else m q

/-- Default ContainInfo; source initialises every id to
{ parentId: null, childIds: [], layer: 0 }. -/
def defaultInfo : ContainInfo := ⟨none, [], 0⟩

/-- One step of the containment loop of calculateContainment
(stackUtils.ts lines 104-121): look backwards through the already
processed events (prevRev, most recent first) for the first one that
contains e; when found, set e's parent and layer and record e as a
child of the parent.  Duplicate ids are undefined behaviour in the
source (aliased map entries); theorems assume id uniqueness. -/
def containStep (m : SMap ContainInfo) (prevRev : List CalendarEvent) (e : CalendarEvent) :
    SMap ContainInfo :=
  match prevRev.find? (fun p => eventContains p e) with
  | none => m
  | some p =>
    let pInfo := (m p.id).getD defaultInfo
    let eInfo := (m e.id).getD defaultInfo
    let m1 := smapSet m e.id ⟨some p.id, eInfo.childIds, pInfo.layer + 1⟩
    smapSet m1 p.id ⟨pInfo.parentId, pInfo.childIds ++ [e.id], pInfo.layer⟩

/-- Fold of containStep over the priority-sorted list, threading the
reversed prefix of already processed events. -/
def containLoop (m : SMap ContainInfo) (prevRev : List CalendarEvent) :
    List CalendarEvent → SMap ContainInfo
  | [] => m
  | e :: rest => containLoop (containStep m prevRev e) (e :: prevRev) rest

/-- Build containment tree for a group of overlapping events
(stackUtils.ts, calculateContainment): initialise every event to a
root record, then for each event find its closest containing
already-placed (higher priority) parent. -/
def calculateContainment (events : List CalendarEvent) (getPriority : CalendarEvent → Int) :
    SMap ContainInfo :=
  let sorted := sortByPriority events getPriority
  let init : SMap ContainInfo :=
    sorted.foldl (fun m e => smapSet m e.id defaultInfo) (fun _ => none)
  containLoop init [] sorted

/-- Visual insets for stacked events (types.ts, StackInsets). -/
structure StackInsets where
  left : Int
  right : Int
deriving DecidableEq, Repr

/-- Calculate visual insets for a given layer depth (stackUtils.ts,
getStackInsets): layer * insetPx on both sides. -/
def getStackInsets (layer : Nat) (insetPx : Int) : StackInsets :=
  ⟨(layer : Int) * insetPx, (layer : Int) * insetPx⟩

/-- Hours component of a timestamp, modelled in UTC. -/
def jsGetHours (t : Int) : Int := (t / 3600000) % 24

/-- Minutes component of a timestamp, modelled in UTC. -/
def jsGetMinutes (t : Int) : Int := (t / 60000) % 60

/-- Convert minutes from midnight to percentage position
(stackUtils.ts, minutesToPercent). -/
def minutesToPercent (minutes startHour endHour : Int) : Rat :=
  ((minutes - startHour * 60 : Int) : Rat) / (((endHour - startHour) * 60 : Int) : Rat) * 100

/-- Event with stacking metadata (types.ts, StackedEvent). -/
structure StackedEvent where
  event : CalendarEvent
  layer : Nat
  parentId : Option String
  childIds : List String
  insets : StackInsets
  top : Rat
  height : Rat
deriving DecidableEq, Repr

/-- Options record of calculateStacks; all fields explicit (source
defaults: insetPx 8, maxDepth 5, startHour 0, endHour 24). -/
structure StackOptions where
  getPriority : CalendarEvent → Int
  insetPx : Int
  maxDepth : Nat
  startHour : Int
  endHour : Int

/-- Result record of calculateStacks. -/
structure StacksResult where
  stackedEvents : List StackedEvent
  stackGroups : List StackGroup
  maxDepth : Nat
  hasStacks : Bool

/-- Minutes from midnight of an event timestamp as computed inline in
calculateStacks: event.start.getHours() * 60 + event.start.getMinutes(). -/
def stackMinutes (t : Int) : Int := jsGetHours t * 60 + jsGetMinutes t

/-- Per-group processing of calculateStacks (stackUtils.ts lines
189-231): a singleton group yields a single root entry with zero
insets; a larger group runs calculateContainment and clamps each layer
to maxDepth via Math.min(info.layer, maxDepth). -/
def processGroup (opts : StackOptions) (g : StackGroup) : List StackedEvent :=
  match g.events with
  | [e] =>
    [⟨e, 0, none, [], ⟨0, 0⟩,
      minutesToPercent (stackMinutes e.start) opts.startHour opts.endHour,
      minutesToPercent (stackMinutes e.stop) opts.startHour opts.endHour -
        minutesToPercent (stackMinutes e.start) opts.startHour opts.endHour⟩]
  | es =>
    let containment := calculateContainment es opts.getPriority
    es.map (fun e =>
      let info := (containment e.id).getD defaultInfo
      let layer := min info.layer opts.maxDepth
      ⟨e, layer, info.parentId, info.childIds, getStackInsets layer opts.insetPx,
        minutesToPercent (stackMinutes e.start) opts.startHour opts.endHour,
        minutesToPercent (stackMinutes e.stop) opts.startHour opts.endHour -
          minutesToPercent (stackMinutes e.start) opts.startHour opts.endHour⟩)

/-- Main function of the priority stack engine (stackUtils.ts,
calculateStacks).  The accumulators globalMaxDepth and hasStacks are
only updated in the multi-event branch of the source loop, where
singleton entries would contribute layer 0 and change nothing; they
are therefore computed as a fold over all emitted entries. -/
def calculateStacks (events : List CalendarEvent) (opts : StackOptions) : StacksResult :=
  if events = [] then ⟨[], [], 0, false⟩
  else
    let stackGroups := findOverlapGroups events
    let allStackedEvents := (stackGroups.map (processGroup opts)).flatten
    ⟨allStackedEvents, stackGroups,
      (allStackedEvents.map (fun se => se.layer)).foldl max 0,
      allStackedEvents.any (fun se => decide (0 < se.layer))⟩

/-- Ordering used by assignColumns: start time ascending, ties broken
by longer duration first (useEventLayout.ts lines 35-40); the relation
holds when the JS comparator is non-positive. -/
def LayoutLE : CalendarEvent → CalendarEvent → Prop := fun a b =>
  a.start < b.start ∨ (a.start = b.start ∧ b.stop - b.start ≤ a.stop - a.start)

instance : DecidableRel LayoutLE := fun a b =>
  inferInstanceAs (Decidable (a.start < b.start ∨ (a.start = b.start ∧ b.stop - b.start ≤ a.stop - a.start)))

instance : IsTotal CalendarEvent LayoutLE := by
  constructor
  intro a b
  rcases lt_trichotomy a.start b.start with h | h | h
  · exact Or.inl (Or.inl h)
  · rcases le_total (b.stop - b.stop) 0 with _ | _ <;>
    · rcases le_total (a.stop - a.start) (b.stop - b.start) with h2 | h2
      · exact Or.inr (Or.inr ⟨h.symm, h2⟩)
      · exact Or.inl (Or.inr ⟨h, h2⟩)
  · exact Or.inr (Or.inl h)

instance : IsTrans CalendarEvent LayoutLE := by
  constructor
  intro a b c hab hbc
  rcases hab with h1 | ⟨e1, d1⟩
  · rcases hbc with h2 | ⟨e2, d2⟩
    · exact Or.inl (lt_trans h1 h2)
    · exact Or.inl (e2 ▸ h1)
  · rcases hbc with h2 | ⟨e2, d2⟩
    · exact Or.inl (e1 ▸ h2)
    · exact Or.inr ⟨e1.trans e2, d2.trans d1⟩

/-- Stable sort performed at the top of assignColumns. -/
def sortLayout (events : List CalendarEvent) : List CalendarEvent :=
  List.insertionSort LayoutLE events

/-- First pass of assignColumns (useEventLayout.ts lines 48-67):
greedy first-fit placement.  For each event, find the first column
whose recorded end time is at most the event's start; reuse it
(updating its end time) or open a new column. -/
def assignLoop : List CalendarEvent → SMap Nat → List Int → SMap Nat × List Int
  | [], m, ends => (m, ends)
  | e :: rest, m, ends =>
    match ends.findIdx? (fun t => decide (t ≤ e.start)) with
    | some col => assignLoop rest (smapSet m e.id col) (ends.set col e.stop)
    | none => assignLoop rest (smapSet m e.id ends.length) (ends ++ [e.stop])

/-- Per-event column record of the column layout engine. -/
structure ColumnInfo where
  column : Nat
  totalColumns : Nat
deriving DecidableEq, Repr

/-- Second pass of assignColumns (useEventLayout.ts lines 69-87):
every event reports the maximum column index among the events that
overlap it (itself included), plus one.  JavaScript Math.max() of an
empty list is -Infinity; the empty case only arises for an event that
does not even overlap itself (start at or after end, undefined
behaviour per the spec) and is modelled as totalColumns 0. -/
def totalLoop (sorted : List CalendarEvent) (assignments : SMap Nat) : SMap ColumnInfo :=
  sorted.foldl (fun m e =>
    let column := (assignments e.id).getD 0
    let overlapping := sorted.filter (fun other => eventsOverlap e other)
    let cols := overlapping.map (fun f => (assignments f.id).getD 0)
    let totalColumns := match cols.maximum with
      | some mx => mx + 1
      | none => 0
    smapSet m e.id ⟨column, totalColumns⟩) (fun _ => none)

/-- Assign columns to overlapping events (useEventLayout.ts,
assignColumns): stable sort, greedy first-fit pass, then the
totalColumns pass. -/
def assignColumns (events : List CalendarEvent) : SMap ColumnInfo :=
  if events = [] then fun _ => none
  else
    let sorted := sortLayout events
    let firstPass := assignLoop sorted (fun _ => none) []
    totalLoop sorted firstPass.1

/-- Event positioned in a layout (types.ts, PositionedEvent). -/
structure PositionedEvent where
  event : CalendarEvent
  column : Nat
  totalColumns : Nat
  top : Rat
  height : Rat
deriving DecidableEq, Repr

/-- Return record of useEventLayout. -/
structure LayoutResult where
  positionedEvents : List PositionedEvent
  hasOverlaps : Bool
deriving DecidableEq, Repr

/-- Minutes from midnight of a Date (timeUtils, dateToMinutes):
date.getHours() * 60 + date.getMinutes(), in the UTC model. -/
def dateToMinutes (t : Int) : Int := jsGetHours t * 60 + jsGetMinutes t

/-- Position record built for one event by useEventLayout (lines
111-128): percentage top/height with clamping, column data from the
assignColumns map with the {column: 0, totalColumns: 1} fallback. -/
def positionEvent (columnInfo : SMap ColumnInfo) (startHour endHour : Int)
    (e : CalendarEvent) : PositionedEvent :=
  let totalMinutes : Int := (endHour - startHour) * 60
  let startMinutes : Int := startHour * 60
  let top : Rat := ((dateToMinutes e.start - startMinutes : Int) : Rat) / (totalMinutes : Rat) * 100
  let height : Rat :=
    ((dateToMinutes e.stop - dateToMinutes e.start : Int) : Rat) / (totalMinutes : Rat) * 100
  let ci := (columnInfo e.id).getD ⟨0, 1⟩
  ⟨e, ci.column, ci.totalColumns, max 0 (min 100 top), max (1/2 : Rat) (min (100 - top) height)⟩

/-- Column layout engine (useEventLayout.ts, useEventLayout): filter
out all-day events, assign columns, position every timed event;
hasOverlaps is true when some positioned event has totalColumns > 1. -/
def useEventLayout (events : List CalendarEvent) (startHour endHour : Int) : LayoutResult :=
  let timedEvents := events.filter (fun e => !e.allDay)
  if timedEvents = [] then ⟨[], false⟩
  else
    let columnInfo := assignColumns timedEvents
    let positioned := timedEvents.map (positionEvent columnInfo startHour endHour)
    ⟨positioned, positioned.any (fun pe => decide (1 < pe.totalColumns))⟩

/-- Scan of the legacy BFS clustering (legacy stackUtils,
groupOverlappingEvents inner for-loop): walk the sorted list, adding
every not-yet-assigned event that overlaps the current one to the
group and marking it assigned, sequentially. -/
def scanAdd (current : CalendarEvent) :
    List CalendarEvent → List String → List CalendarEvent × List String
  | [], assigned => ([], assigned)
  | other :: rest, assigned =>
    if other.id ∉ assigned ∧ eventsOverlap current other then
      let r := scanAdd current rest (assigned ++ [other.id])
      (other :: r.1, r.2)
    else scanAdd current rest assigned

/-- Number of events of l whose id is not yet assigned; termination
measure component of the BFS worklist loop. -/
def unassignedCount (l : List CalendarEvent) (assigned : List String) : Nat :=
  (l.filter (fun e => decide (e.id ∉ assigned))).length

/-- Filter by a stronger predicate yields a strictly shorter list when
some element separates the two predicates. -/
theorem length_filter_lt_of_sep {α : Type} (L : List α) (p q : α → Bool)
    (hpq : ∀ e, q e = true → p e = true) (x : α) (hx : x ∈ L)
    (hpx : p x = true) (hqx : q x = false) :
    (L.filter q).length < (L.filter p).length := by
  induction L with
  | nil => cases hx
  | cons h t ih =>
    have hmono : (t.filter q).length ≤ (t.filter p).length :=
      (List.monotone_filter_right t hpq).length_le
    rcases List.mem_cons.mp hx with rfl | hxt
    · simp only [List.filter_cons, hpx, hqx]
      simpa using Nat.lt_succ_of_le hmono
    · by_cases hq : q h = true
      · have hp := hpq h hq
        simp only [List.filter_cons, hp, hq]
        simpa using ih hxt
      · have hq' : q h = false := by simpa using hq
        by_cases hp : p h = true
        · simp only [List.filter_cons, hp, hq']
          simpa using Nat.lt_succ_of_le hmono
        · have hp' : p h = false := by simpa using hp
          simp only [List.filter_cons, hp', hq']
          exact ih hxt

/-- Appending a fresh id that occurs in the list strictly decreases
the unassigned count. -/
theorem unassignedCount_append_lt (L : List CalendarEvent) (a : List String)
    (s : String) (x : CalendarEvent) (hx : x ∈ L) (hid : x.id = s) (hs : s ∉ a) :
    unassignedCount L (a ++ [s]) < unassignedCount L a := by
  apply length_filter_lt_of_sep L (fun e => decide (e.id ∉ a)) (fun e => decide (e.id ∉ a ++ [s]))
  · intro e he
    simp only [decide_eq_true_eq] at he ⊢
    intro hmem
    exact he (List.mem_append_left _ hmem)
  · exact hx
  · simpa [hid]
  · simp [hid]

/-- Unassigned count after appending a block of fresh, distinct,
occurring ids drops by at least the block length. -/
theorem unassignedCount_append_block (L : List CalendarEvent) :
    ∀ (S : List String) (a : List String), S.Nodup →
      (∀ s ∈ S, s ∉ a ∧ ∃ x ∈ L, x.id = s) →
      unassignedCount L (a ++ S) + S.length ≤ unassignedCount L a := by
  intro S
  induction S with
  | nil => intro a _ _; simp
  | cons s S' ih =>
    intro a hnd hS
    obtain ⟨hsa, x, hxL, hxid⟩ := hS s (List.mem_cons_self s S')
    have h1 : unassignedCount L (a ++ [s]) < unassignedCount L a :=
      unassignedCount_append_lt L a s x hxL hxid hsa
    have h2 : unassignedCount L ((a ++ [s]) ++ S') + S'.length ≤ unassignedCount L (a ++ [s]) := by
      apply ih (a ++ [s]) hnd.of_cons
      intro t ht
      obtain ⟨hta, hw⟩ := hS t (List.mem_cons_of_mem s ht)
      refine ⟨?_, hw⟩
      intro hmem
      rcases List.mem_append.mp hmem with h | h
      · exact hta h
      · have : t = s := by simpa using h
        exact (List.nodup_cons.mp hnd).1 (this ▸ ht)
    have heq : unassignedCount L ((a ++ [s]) ++ S') = unassignedCount L (a ++ (s :: S')) := by
      unfold unassignedCount
      congr 1
      apply List.filter_congr
      intro e _
      have : (e.id ∈ a ++ [s] ++ S') ↔ (e.id ∈ a ++ s :: S') := by
        simp [List.mem_append, or_assoc]
      simp [this]
    simp only [List.length_cons]
    omega

/-- The scan of the legacy BFS returns the incoming assigned set
extended by the ids of the added events, which are distinct, fresh,
and drawn from the scanned list. -/
theorem scanAdd_spec (c : CalendarEvent) :
    ∀ (l : List CalendarEvent) (a : List String),
      (scanAdd c l a).2 = a ++ ((scanAdd c l a).1.map (fun e => e.id)) ∧
      ((scanAdd c l a).1.map (fun e => e.id)).Nodup ∧
      ∀ x ∈ (scanAdd c l a).1, x ∈ l ∧ x.id ∉ a := by
  intro l
  induction l with
  | nil => intro a; simp [scanAdd]
  | cons other rest ih =>
    intro a
    by_cases h : other.id ∉ a ∧ eventsOverlap c other = true
    · obtain ⟨hmap, hnd, hmem⟩ := ih (a ++ [other.id])
      simp only [scanAdd, if_pos h]
      refine ⟨?_, ?_, ?_⟩
      · simpa [List.append_assoc] using hmap
      · simp only [List.map_cons, List.nodup_cons]
        refine ⟨?_, hnd⟩
        intro hcon
        obtain ⟨x, hx, hxid⟩ := List.mem_map.mp hcon
        exact (hmem x hx).2 (List.mem_append_right a (by simp [hxid]))
      · intro x hx
        rcases List.mem_cons.mp hx with rfl | hx2
        · exact ⟨List.mem_cons_self _ _, h.1⟩
        · obtain ⟨hxl, hxa⟩ := hmem x hx2
          exact ⟨List.mem_cons_of_mem _ hxl, fun hc => hxa (List.mem_append_left _ hc)⟩
    · obtain ⟨hmap, hnd, hmem⟩ := ih a
      simp only [scanAdd, if_neg h]
      exact ⟨hmap, hnd, fun x hx => ⟨List.mem_cons_of_mem _ (hmem x hx).1, (hmem x hx).2⟩⟩

/-- Measure decrease of the scan: the ids it assigns are taken from
the unassigned events of the scanned list. -/
theorem scanAdd_measure (c : CalendarEvent) (l : List CalendarEvent) (a : List String) :
    unassignedCount l (scanAdd c l a).2 + (scanAdd c l a).1.length ≤ unassignedCount l a := by
  obtain ⟨hmap, hnd, hmem⟩ := scanAdd_spec c l a
  have := unassignedCount_append_block l ((scanAdd c l a).1.map (fun e => e.id)) a hnd ?side
  · rw [hmap]
    simpa using this
  · intro s hs
    obtain ⟨x, hx, hxid⟩ := List.mem_map.mp hs
    obtain ⟨hxl, hxa⟩ := hmem x hx
    exact ⟨hxid ▸ hxa, x, hxl, hxid⟩

/-- Worklist loop of the legacy BFS clustering (legacy stackUtils,
groupOverlappingEvents while-loop): repeatedly take the next group
member, scan the whole sorted list for unassigned overlapping events
and append them to the group.  Returns the group in discovery order
together with the final assigned set. -/
def bfsLoop (sorted : List CalendarEvent) (queue : List CalendarEvent)
    (assigned : List String) : List CalendarEvent × List String :=
  match queue with
  | [] => ([], assigned)
  | current :: queueRest =>
    let r := scanAdd current sorted assigned
    let rest := bfsLoop sorted (queueRest ++ r.1) r.2
    (current :: rest.1, rest.2)
termination_by queue.length + unassignedCount sorted assigned
decreasing_by
  have h := scanAdd_measure e0 sorted assigned
  simp only [List.length_append, List.length_cons]
  omega

/-- Outer loop of groupOverlappingEvents: seed a new group from each
not-yet-assigned event in sorted order. -/
def goGroups (sorted : List CalendarEvent) :
    List CalendarEvent → List String → List (List CalendarEvent)
  | [], _ => []
  | e :: rest, assigned =>
    if e.id ∈ assigned then goGroups sorted rest assigned
    else
      let r := bfsLoop sorted [e] (assigned ++ [e.id])
      r.1 :: goGroups sorted rest r.2

/-- Group events into overlapping clusters (legacy stackUtils,
groupOverlappingEvents): search-based transitive closure over the
start-sorted list. -/
def groupOverlappingEvents (events : List CalendarEvent) : List (List CalendarEvent) :=
  if events = [] then []
  else goGroups (sortStart events) (sortStart events) []

/-- Transitive overlap connectivity through members of a list: the
spec's notion of two events lying in one overlap cluster. -/
def OverlapChain (l : List CalendarEvent) (x y : CalendarEvent) : Prop :=
  Relation.ReflTransGen (fun a b => a ∈ l ∧ b ∈ l ∧ eventsOverlap a b = true) x y

/-- Chains are preserved when the ambient list grows. -/
theorem OverlapChain.mono {l l2 : List CalendarEvent} (hsub : ∀ x ∈ l, x ∈ l2)
    {x y : CalendarEvent} (h : OverlapChain l x y) : OverlapChain l2 x y := by
  refine Relation.ReflTransGen.mono ?_ h
  intro a b ⟨ha, hb, hov⟩
  exact ⟨hsub a ha, hsub b hb, hov⟩

/-- Overlap is symmetric. -/
theorem eventsOverlap_comm (a b : CalendarEvent) : eventsOverlap a b = eventsOverlap b a :=
  Bool.and_comm _ _

/-- Chains are symmetric. -/
theorem OverlapChain.symm {l : List CalendarEvent} {x y : CalendarEvent}
    (h : OverlapChain l x y) : OverlapChain l y x := by
  induction h with
  | refl => exact Relation.ReflTransGen.refl
  | tail _ hstep ih =>
    obtain ⟨ha, hb, hov⟩ := hstep
    exact Relation.ReflTransGen.head ⟨hb, ha, (eventsOverlap_comm _ _) ▸ hov⟩ ih

/-- Events of the five-event nested configuration used to exercise the
depth clamp of calculateStacks. -/
def nestE1 : CalendarEvent := ⟨("a"), 0, 100, false⟩

/-- Second nested event. -/
def nestE2 : CalendarEvent := ⟨("b"), 10, 90, false⟩

/-- Third nested event. -/
def nestE3 : CalendarEvent := ⟨("c"), 20, 80, false⟩

/-- Fourth nested event. -/
def nestE4 : CalendarEvent := ⟨("d"), 30, 70, false⟩

/-- Fifth nested event. -/
def nestE5 : CalendarEvent := ⟨("e"), 40, 60, false⟩

/-- Five mutually overlapping, successively nested events. -/
def nestEvents : List CalendarEvent := [nestE1, nestE2, nestE3, nestE4, nestE5]

/-- Stack options with maxDepth 3 and priority ascending with start
time (so the nesting chain is processed outermost first). -/
def nestOpts : StackOptions := ⟨fun e => e.start, 8, 3, 0, 24⟩

/-- Claim C1, counterexample: with five mutually overlapping nested
events and maxDepth = 3, calculateStacks reports a layer of 3, which
exceeds maxDepth − 1 = 2; the source clamps with
Math.min(info.layer, maxDepth), not maxDepth − 1. -/
theorem stacks_layer_clamp_cex :
    ∃ se ∈ (calculateStacks nestEvents nestOpts).stackedEvents, 3 - 1 < se.layer := by
  decide

/-- Claim C1, amended: every reported layer of calculateStacks is at
most the configured maxDepth (the computed layer is clamped down to
maxDepth, not maxDepth − 1). -/
theorem stacks_layer_le_maxDepth (events : List CalendarEvent) (opts : StackOptions) :
    ∀ se ∈ (calculateStacks events opts).stackedEvents, se.layer ≤ opts.maxDepth := by
  intro se hse
  unfold calculateStacks at hse
  by_cases h : events = []
  · simp [h] at hse
  · simp only [if_neg h] at hse
    obtain ⟨l, hl, hsel⟩ := List.mem_flatten.mp hse
    obtain ⟨g, _, rfl⟩ := List.mem_map.mp hl
    unfold processGroup at hsel
    match hg : g.events with
    | [e] =>
      rw [hg] at hsel
      simp only [List.mem_singleton] at hsel
      subst hsel
      exact Nat.zero_le _
    | [] =>
      rw [hg] at hsel
      simp at hsel
    | e :: f :: rest =>
      rw [hg] at hsel
      obtain ⟨x, _, rfl⟩ := List.mem_map.mp hsel
      exact Nat.min_le_right _ _


/-- Placeholder stacked event used only as a getD default below. -/
def dummyStacked : StackedEvent := ⟨⟨("z"), 0, 1, false⟩, 0, none, [], ⟨0, 0⟩, 0, 0⟩

/-- The layer bound instantiated on the first stacked event of the
five-event nested configuration. -/
theorem stacks_layer_le_maxDepth_witness :
    ((calculateStacks nestEvents nestOpts).stackedEvents.getD 0 dummyStacked).layer
      ≤ nestOpts.maxDepth := by
  have hlen : 0 < (calculateStacks nestEvents nestOpts).stackedEvents.length := by decide
  rw [List.getD_eq_getElem?_getD, List.getElem?_eq_getElem hlen, Option.getD_some]
  exact stacks_layer_le_maxDepth nestEvents nestOpts _ (List.getElem_mem hlen)
/-- Projection of a positioned event is the event itself. -/
theorem positionEvent_event (ci : SMap ColumnInfo) (sh eh : Int) (e : CalendarEvent) :
    (positionEvent ci sh eh e).event = e := rfl

/-- Claim C10: useEventLayout silently excludes all-day events: the
positioned events are exactly the non-all-day input events in order,
and the whole output (columns, totalColumns, hasOverlaps) is the one
computed from the all-day-free sublist alone. -/
theorem useEventLayout_allday_filter (events : List CalendarEvent) (startHour endHour : Int) :
    (useEventLayout events startHour endHour).positionedEvents.map (fun pe => pe.event) =
      events.filter (fun e => !e.allDay) ∧
    useEventLayout events startHour endHour =
      useEventLayout (events.filter (fun e => !e.allDay)) startHour endHour := by
  have hff : (events.filter (fun e => !e.allDay)).filter (fun e => !e.allDay) =
      events.filter (fun e => !e.allDay) := by
    rw [List.filter_filter]
    simp
  constructor
  · unfold useEventLayout
    by_cases h : events.filter (fun e => !e.allDay) = []
    · simp [h]
    · simp only [if_neg h, List.map_map]
      have : ((fun pe : PositionedEvent => pe.event) ∘
          positionEvent (assignColumns (events.filter (fun e => !e.allDay))) startHour endHour) =
          id := by
        funext e
        simp [positionEvent_event]
      rw [this, List.map_id]
  · unfold useEventLayout
    rw [hff]

/-- Long base event of the column counterexample cluster. -/
def colEvA : CalendarEvent := ⟨("a"), 0, 1000, false⟩

/-- Early short event, pushed to column 1. -/
def colEvB : CalendarEvent := ⟨("b"), 100, 200, false⟩

/-- Event forced into column 2. -/
def colEvF : CalendarEvent := ⟨("f"), 150, 350, false⟩

/-- Event reusing column 1, overlapping the column-2 event. -/
def colEvC : CalendarEvent := ⟨("c"), 300, 400, false⟩

/-- Late event reusing column 1, overlapping only the base event. -/
def colEvD : CalendarEvent := ⟨("d"), 500, 600, false⟩

/-- Five events forming a single transitive overlap cluster. -/
def colEvents : List CalendarEvent := [colEvA, colEvB, colEvF, colEvC, colEvD]

/-- Claim C2, counterexample: the events c and d lie in one connected
overlap cluster of the input (both overlap the base event a), yet the
column layout engine reports totalColumns 3 for c and totalColumns 2
for d: totalColumns is not uniform across a connected cluster, because
the source computes it from each event's direct overlaps only. -/
theorem totalColumns_cluster_cex :
    OverlapChain colEvents colEvC colEvD ∧
    (∃ pe ∈ (useEventLayout colEvents 0 24).positionedEvents,
      pe.event = colEvC ∧ pe.totalColumns = 3) ∧
    (∃ pe ∈ (useEventLayout colEvents 0 24).positionedEvents,
      pe.event = colEvD ∧ pe.totalColumns = 2) := by
  have h1 : (fun a b => a ∈ colEvents ∧ b ∈ colEvents ∧ eventsOverlap a b = true)
      colEvC colEvA := ⟨by decide, by decide, by decide⟩
  have h2 : (fun a b => a ∈ colEvents ∧ b ∈ colEvents ∧ eventsOverlap a b = true)
      colEvA colEvD := ⟨by decide, by decide, by decide⟩
  exact ⟨Relation.ReflTransGen.head h1
    (Relation.ReflTransGen.head h2 Relation.ReflTransGen.refl), by decide, by decide⟩

/-- Events of a StackGroup built by mkGroup. -/
theorem mkGroup_events (cur : List CalendarEvent) (g : Int) : (mkGroup cur g).events = cur := rfl

/-- Two groups are apart when no event of one overlaps an event of the
other. -/
def GroupsApart (G1 G2 : StackGroup) : Prop :=
  ∀ x ∈ G1.events, ∀ y ∈ G2.events, eventsOverlap x y = false

/-- All members of a list are chain-connected through the list. -/
def ChainWithin (l : List CalendarEvent) : Prop :=
  ∀ x ∈ l, ∀ y ∈ l, OverlapChain l x y

/-- The sweep emits every event of the current group and of the
pending list exactly once, in order. -/
theorem sweepGroups_flatten (pending : List CalendarEvent) :
    ∀ (cur : List CalendarEvent) (g : Int),
      ((sweepGroups pending cur g).map StackGroup.events).flatten = cur ++ pending := by
  induction pending with
  | nil => intro cur g; simp [sweepGroups, mkGroup]
  | cons e rest ih =>
    intro cur g
    by_cases h : e.start < g
    · simp only [sweepGroups, if_pos h]
      rw [ih]
      simp
    · simp only [sweepGroups, if_neg h, List.map_cons, List.flatten_cons, mkGroup_events]
      rw [ih]
      simp

/-- Every member of a sweep group comes from the current group or the
pending events. -/
theorem sweepGroups_mem (pending : List CalendarEvent) (cur : List CalendarEvent) (g : Int)
    (G : StackGroup) (hG : G ∈ sweepGroups pending cur g) :
    ∀ x ∈ G.events, x ∈ cur ++ pending := by
  intro x hx
  rw [← sweepGroups_flatten pending cur g]
  exact List.mem_flatten.mpr ⟨G.events, List.mem_map_of_mem StackGroup.events hG, hx⟩

/-- Groups produced by the sweep are nonempty when the current group
is. -/
theorem sweepGroups_nonempty (pending : List CalendarEvent) :
    ∀ (cur : List CalendarEvent) (g : Int), cur ≠ [] →
      ∀ G ∈ sweepGroups pending cur g, G.events ≠ [] := by
  induction pending with
  | nil =>
    intro cur g hcur G hG
    simp only [sweepGroups, List.mem_singleton] at hG
    simpa [hG, mkGroup_events]
  | cons e rest ih =>
    intro cur g hcur G hG
    by_cases h : e.start < g
    · rw [sweepGroups, if_pos h] at hG
      exact ih (cur ++ [e]) (max g e.stop) (by simp) G hG
    · rw [sweepGroups, if_neg h] at hG
      rcases List.mem_cons.mp hG with rfl | hG2
      · simpa [mkGroup_events]
      · exact ih [e] e.stop (by simp) G hG2

/-- Groups produced by the sweep are sorted by start time. -/
theorem sweepGroups_sortedEvents (pending : List CalendarEvent) :
    ∀ (cur : List CalendarEvent) (g : Int), cur.Sorted StartLE →
      (∀ x ∈ cur, ∀ y ∈ pending, StartLE x y) → pending.Sorted StartLE →
      ∀ G ∈ sweepGroups pending cur g, G.events.Sorted StartLE := by
  induction pending with
  | nil =>
    intro cur g hcur _ _ G hG
    simp only [sweepGroups, List.mem_singleton] at hG
    simpa [hG, mkGroup_events]
  | cons e rest ih =>
    intro cur g hcur hb hc G hG
    by_cases h : e.start < g
    · rw [sweepGroups, if_pos h] at hG
      refine ih (cur ++ [e]) (max g e.stop) ?_ ?_ hc.of_cons G hG
      · rw [List.Sorted, List.pairwise_append]
        exact ⟨hcur, List.pairwise_singleton _ _,
          fun x hx y hy => (List.mem_singleton.mp hy) ▸ hb x hx e (List.mem_cons_self e rest)⟩
      · intro x hx y hy
        rcases List.mem_append.mp hx with hx2 | hx2
        · exact hb x hx2 y (List.mem_cons_of_mem e hy)
        · have : x = e := List.mem_singleton.mp hx2
          exact this ▸ List.rel_of_sorted_cons hc y hy
    · rw [sweepGroups, if_neg h] at hG
      rcases List.mem_cons.mp hG with rfl | hG2
      · simpa [mkGroup_events]
      · refine ih [e] e.stop (List.sorted_singleton e) ?_ hc.of_cons G hG2
        intro x hx y hy
        have : x = e := List.mem_singleton.mp hx
        exact this ▸ List.rel_of_sorted_cons hc y hy

/-- Separation: groups produced by the sweep are pairwise apart, given
that everything in the current group ends by the watermark and starts
no later than any pending event. -/
theorem sweepGroups_apart (pending : List CalendarEvent) :
    ∀ (cur : List CalendarEvent) (g : Int), (∀ x ∈ cur, x.stop ≤ g) →
      (∀ x ∈ cur, ∀ y ∈ pending, x.start ≤ y.start) → pending.Sorted StartLE →
      (sweepGroups pending cur g).Pairwise GroupsApart := by
  induction pending with
  | nil => intro cur g _ _ _; simp [sweepGroups]
  | cons e rest ih =>
    intro cur g ha hb hc
    by_cases h : e.start < g
    · rw [sweepGroups, if_pos h]
      refine ih (cur ++ [e]) (max g e.stop) ?_ ?_ hc.of_cons
      · intro x hx
        rcases List.mem_append.mp hx with hx2 | hx2
        · exact le_trans (ha x hx2) (le_max_left _ _)
        · exact (List.mem_singleton.mp hx2) ▸ le_max_right _ _
      · intro x hx y hy
        rcases List.mem_append.mp hx with hx2 | hx2
        · exact hb x hx2 y (List.mem_cons_of_mem e hy)
        · exact (List.mem_singleton.mp hx2) ▸ List.rel_of_sorted_cons hc y hy
    · rw [sweepGroups, if_neg h]
      refine List.Pairwise.cons ?_ ?_
      · intro G2 hG2 x hx y hy
        have hyy : y ∈ [e] ++ rest := sweepGroups_mem rest [e] e.stop G2 hG2 y hy
        have h1 : x.stop ≤ g := ha x (by simpa [mkGroup_events] using hx)
        have h2 : g ≤ e.start := not_lt.mp h
        have h3 : e.start ≤ y.start := by
          rcases List.mem_append.mp hyy with hy2 | hy2
          · exact (List.mem_singleton.mp hy2) ▸ le_refl _
          · exact List.rel_of_sorted_cons hc y hy2
        have : ¬ (x.stop > y.start) := by omega
        simp [eventsOverlap, this]
      · refine ih [e] e.stop (by simp) ?_ hc.of_cons
        intro x hx y hy
        exact (List.mem_singleton.mp hx) ▸ List.rel_of_sorted_cons hc y hy

/-- Connectivity: every group produced by the sweep is chain-connected
through its own members. -/
theorem sweepGroups_chain (pending : List CalendarEvent) :
    ∀ (cur : List CalendarEvent) (g : Int), (∃ w ∈ cur, w.stop = g) →
      ChainWithin cur →
      (∀ x ∈ cur, ∀ y ∈ pending, x.start ≤ y.start) → pending.Sorted StartLE →
      (∀ y ∈ pending, y.start < y.stop) →
      ∀ G ∈ sweepGroups pending cur g, ChainWithin G.events := by
  induction pending with
  | nil =>
    intro cur g _ hchain _ _ _ G hG
    simp only [sweepGroups, List.mem_singleton] at hG
    simpa [hG, mkGroup_events]
  | cons e rest ih =>
    intro cur g hw hchain hb hc hf G hG
    by_cases h : e.start < g
    · rw [sweepGroups, if_pos h] at hG
      obtain ⟨w, hwcur, hwstop⟩ := hw
      have hsub : ∀ x ∈ cur, x ∈ cur ++ [e] := fun x hx => List.mem_append_left _ hx
      have hedge : ∀ x ∈ cur, OverlapChain (cur ++ [e]) x e := by
        intro x hx
        have hchainxw : OverlapChain (cur ++ [e]) x w :=
          OverlapChain.mono hsub (hchain x hx w hwcur)
        refine Relation.ReflTransGen.tail hchainxw ?_
        refine ⟨hsub w hwcur, List.mem_append_right _ (List.mem_singleton_self e), ?_⟩
        have h1 : w.start ≤ e.start := hb w hwcur e (List.mem_cons_self e rest)
        have h2 : e.start < e.stop := hf e (List.mem_cons_self e rest)
        have h3 : w.stop = g := hwstop
        simp only [eventsOverlap, Bool.and_eq_true, decide_eq_true_eq]
        omega
      refine ih (cur ++ [e]) (max g e.stop) ?_ ?_ ?_ hc.of_cons ?_ G hG
      · rcases le_total g e.stop with hle | hle
        · exact ⟨e, List.mem_append_right _ (List.mem_singleton_self e), (max_eq_right hle).symm⟩
        · exact ⟨w, List.mem_append_left _ hwcur, hwstop.trans (max_eq_left hle).symm⟩
      · intro x hx y hy
        rcases List.mem_append.mp hx with hx2 | hx2
        · rcases List.mem_append.mp hy with hy2 | hy2
          · exact OverlapChain.mono hsub (hchain x hx2 y hy2)
          · exact (List.mem_singleton.mp hy2) ▸ hedge x hx2
        · have hxe : x = e := List.mem_singleton.mp hx2
          subst hxe
          rcases List.mem_append.mp hy with hy2 | hy2
          · exact (hedge y hy2).symm
          · have hye : y = x := List.mem_singleton.mp hy2
            subst hye
            exact Relation.ReflTransGen.refl
      · intro x hx y hy
        rcases List.mem_append.mp hx with hx2 | hx2
        · exact hb x hx2 y (List.mem_cons_of_mem e hy)
        · exact (List.mem_singleton.mp hx2) ▸ List.rel_of_sorted_cons hc y hy
      · intro y hy
        exact hf y (List.mem_cons_of_mem e hy)
    · rw [sweepGroups, if_neg h] at hG
      rcases List.mem_cons.mp hG with rfl | hG2
      · simpa [mkGroup_events]
      · refine ih [e] e.stop ⟨e, List.mem_singleton_self e, rfl⟩ ?_ ?_ hc.of_cons ?_ G hG2
        · intro x hx y hy
          have hxe : x = e := List.mem_singleton.mp hx
          subst hxe
          have hye : y = x := List.mem_singleton.mp hy
          subst hye
          exact Relation.ReflTransGen.refl
        · intro x hx y hy
          exact (List.mem_singleton.mp hx) ▸ List.rel_of_sorted_cons hc y hy
        · intro y hy
          exact hf y (List.mem_cons_of_mem e hy)

/-- Partition, separation and connectivity of findOverlapGroups, for
events of positive duration. -/
theorem findOverlapGroups_props (events : List CalendarEvent)
    (hse : ∀ e ∈ events, e.start < e.stop) :
    List.Perm ((findOverlapGroups events).map StackGroup.events).flatten events ∧
    (findOverlapGroups events).Pairwise GroupsApart ∧
    ∀ G ∈ findOverlapGroups events, ChainWithin G.events := by
  have hperm : List.Perm (sortStart events) events := List.perm_insertionSort _ _
  have hsorted : (sortStart events).Sorted StartLE := List.sorted_insertionSort _ _
  match hs : sortStart events with
  | [] =>
    rw [hs] at hperm
    have hnil : events = [] := hperm.nil_eq.symm
    subst hnil
    simp [findOverlapGroups, hs]
  | e0 :: rest =>
    rw [hs] at hperm hsorted
    have hgs : findOverlapGroups events = sweepGroups rest [e0] e0.stop := by
      rw [findOverlapGroups, hs]
    have hb : ∀ x ∈ [e0], ∀ y ∈ rest, x.start ≤ y.start := by
      intro x hx y hy
      exact (List.mem_singleton.mp hx) ▸ List.rel_of_sorted_cons hsorted y hy
    refine ⟨?_, ?_, ?_⟩
    · rw [hgs, sweepGroups_flatten]
      simpa using hperm
    · rw [hgs]
      refine sweepGroups_apart rest [e0] e0.stop ?_ hb hsorted.of_cons
      intro x hx
      exact (List.mem_singleton.mp hx) ▸ le_refl _
    · rw [hgs]
      refine sweepGroups_chain rest [e0] e0.stop
        ⟨e0, List.mem_singleton_self e0, rfl⟩ ?_ hb hsorted.of_cons ?_
      · intro x hx y hy
        have hxe : x = e0 := List.mem_singleton.mp hx
        subst hxe
        have hye : y = x := List.mem_singleton.mp hy
        subst hye
        exact Relation.ReflTransGen.refl
      · intro y hy
        exact hse y (hperm.mem_iff.mp (List.mem_cons_of_mem e0 hy))

/-- Claim C3: for events with positive duration, findOverlapGroups
returns groups that partition the input (the concatenation of the
groups is a permutation of the input list), such that events in
different groups never overlap, and any two events of one group are
connected by a chain of pairwise overlaps through that group. -/
theorem findOverlapGroups_partition (events : List CalendarEvent)
    (hse : ∀ e ∈ events, e.start < e.stop) :
    List.Perm ((findOverlapGroups events).map StackGroup.events).flatten events ∧
    (findOverlapGroups events).Pairwise GroupsApart ∧
    ∀ G ∈ findOverlapGroups events, ChainWithin G.events :=
  findOverlapGroups_props events hse

/-- Three events: two overlapping, one separate. -/
def witEvents : List CalendarEvent :=
  [⟨("a"), 0, 10, false⟩, ⟨("b"), 5, 15, false⟩, ⟨("c"), 20, 30, false⟩]

/-- Claim C3, witness at a concrete input. -/
theorem findOverlapGroups_partition_witness :
    (∀ e ∈ witEvents, e.start < e.stop) ∧
    (List.Perm ((findOverlapGroups witEvents).map StackGroup.events).flatten witEvents ∧
    (findOverlapGroups witEvents).Pairwise GroupsApart ∧
    ∀ G ∈ findOverlapGroups witEvents, ChainWithin G.events) :=
  ⟨by decide, findOverlapGroups_partition witEvents (by decide)⟩

/-- Reading back the value just written by List.set. -/
theorem getD_set_self (l : List Int) (i : Nat) (v : Int) (h : i < l.length) :
    (l.set i v).getD i 0 = v := by
  rw [List.getD_eq_getElem?_getD, List.getElem?_set_self', List.getElem?_eq_getElem h]
  rfl

/-- List.set does not change other positions. -/
theorem getD_set_ne (l : List Int) (i j : Nat) (v : Int) (h : i ≠ j) :
    (l.set i v).getD j 0 = l.getD j 0 := by
  rw [List.getD_eq_getElem?_getD, List.getElem?_set_ne h, ← List.getD_eq_getElem?_getD]

/-- A successful findIdx? returns an index inside the list where the
predicate holds. -/
theorem findIdx?_some_spec {α : Type} (p : α → Bool) (d : α) :
    ∀ (l : List α) (col : Nat), l.findIdx? p = some col →
      col < l.length ∧ p (l.getD col d) = true := by
  intro l
  induction l with
  | nil => intro col h; rw [List.findIdx?_nil] at h; cases h
  | cons a t ih =>
    intro col h
    rw [List.findIdx?_cons] at h
    by_cases hpa : p a = true
    · rw [if_pos hpa] at h
      have : col = 0 := by injection h with h2; exact h2.symm
      subst this
      exact ⟨Nat.succ_pos _, by simpa [List.getD_cons_zero] using hpa⟩
    · rw [if_neg hpa, List.findIdx?_succ] at h
      obtain ⟨c2, hc2, hcol⟩ := Option.map_eq_some'.mp h
      obtain ⟨hlt, hp⟩ := ih c2 hc2
      subst hcol
      exact ⟨Nat.succ_lt_succ hlt, by simpa [List.getD_cons_succ] using hp⟩

/-- Invariant of the greedy first-fit pass of assignColumns: every
processed event records a column within range whose end-time slot is
at or past the event's end, and two processed events with distinct ids
sharing a column never overlap. -/
theorem assignLoop_invariant :
    ∀ (l : List CalendarEvent) (m : SMap Nat) (ends : List Int)
      (processed : List CalendarEvent),
      (∀ e ∈ processed, ∃ c, m e.id = some c ∧ c < ends.length ∧ e.stop ≤ ends.getD c 0) →
      (∀ x ∈ processed, ∀ y ∈ processed, x.id ≠ y.id → m x.id = m y.id →
        eventsOverlap x y = false) →
      (∀ e ∈ l, e.start < e.stop) →
      (∀ x ∈ processed, ∀ y ∈ l, x.id ≠ y.id) →
      (l.map (fun e => e.id)).Nodup →
      (∀ e ∈ processed ++ l, ∃ c, (assignLoop l m ends).1 e.id = some c ∧
          c < (assignLoop l m ends).2.length ∧ e.stop ≤ (assignLoop l m ends).2.getD c 0) ∧
      (∀ x ∈ processed ++ l, ∀ y ∈ processed ++ l, x.id ≠ y.id →
        (assignLoop l m ends).1 x.id = (assignLoop l m ends).1 y.id →
        eventsOverlap x y = false) := by
  intro l
  induction l with
  | nil =>
    intro m ends processed h1 h3 _ _ _
    constructor
    · simpa [assignLoop] using h1
    · simpa [assignLoop] using h3
  | cons e rest ih =>
    intro m ends processed h1 h3 hse hdisj hnd
    have hefresh : ∀ x ∈ processed, x.id ≠ e.id :=
      fun x hx => hdisj x hx e (List.mem_cons_self e rest)
    have hndparts : (∀ x ∈ rest, ¬x.id = e.id) ∧ (rest.map (fun x => x.id)).Nodup := by
      simpa using hnd
    have hserest : ∀ x ∈ rest, x.start < x.stop :=
      fun x hx => hse x (List.mem_cons_of_mem e hx)
    have hndrest : (rest.map (fun x => x.id)).Nodup := hndparts.2
    have hdisj2 : ∀ (mm : SMap Nat), ∀ x ∈ processed ++ [e], ∀ y ∈ rest, x.id ≠ y.id := by
      intro mm x hx y hy
      rcases List.mem_append.mp hx with hx2 | hx2
      · exact hdisj x hx2 y (List.mem_cons_of_mem e hy)
      · have : x = e := List.mem_singleton.mp hx2
        subst this
        intro hcon
        exact hndparts.1 y hy hcon.symm
    have hestartstop : e.start < e.stop := hse e (List.mem_cons_self e rest)
    have happend : processed ++ e :: rest = (processed ++ [e]) ++ rest := by simp
    match hfind : ends.findIdx? (fun t => decide (t ≤ e.start)) with
    | some col =>
      obtain ⟨hcol, hpcol⟩ := findIdx?_some_spec (fun t => decide (t ≤ e.start)) 0 ends col hfind
      have hfree : ends.getD col 0 ≤ e.start := by simpa using hpcol
      have step : assignLoop (e :: rest) m ends =
          assignLoop rest (smapSet m e.id col) (ends.set col e.stop) := by
        rw [assignLoop, hfind]
      rw [step, happend]
      apply ih (smapSet m e.id col) (ends.set col e.stop) (processed ++ [e])
      · intro f hf
        rcases List.mem_append.mp hf with hf2 | hf2
        · obtain ⟨c, hc, hclen, hcend⟩ := h1 f hf2
          refine ⟨c, ?_, by simpa using hclen, ?_⟩
          · rw [smapSet, if_neg]
            · exact hc
            · exact hefresh f hf2
          · by_cases hceq : c = col
            · subst hceq
              rw [getD_set_self ends c e.stop hcol]
              have : f.stop ≤ e.start := le_trans hcend hfree
              omega
            · rw [getD_set_ne ends col c e.stop (fun hcon => hceq hcon.symm)]
              exact hcend
        · have : f = e := List.mem_singleton.mp hf2
          subst this
          refine ⟨col, by simp [smapSet], by simpa using hcol, ?_⟩
          rw [getD_set_self ends col f.stop hcol]
      · intro x hx y hy hxy hmeq
        rcases List.mem_append.mp hx with hx2 | hx2
        · rcases List.mem_append.mp hy with hy2 | hy2
          · apply h3 x hx2 y hy2 hxy
            rwa [smapSet, if_neg (hefresh x hx2), smapSet, if_neg (hefresh y hy2)] at hmeq
          · have : y = e := List.mem_singleton.mp hy2
            subst this
            rw [smapSet, if_neg (hefresh x hx2), smapSet, if_pos rfl] at hmeq
            obtain ⟨c, hc, _, hcend⟩ := h1 x hx2
            rw [hc] at hmeq
            have hcc : c = col := by injection hmeq with h2
            subst hcc
            have : x.stop ≤ y.start := le_trans hcend hfree
            simp only [eventsOverlap, Bool.and_eq_false_iff, decide_eq_false_iff_not, not_lt]
            right
            omega
        · have : x = e := List.mem_singleton.mp hx2
          subst this
          rcases List.mem_append.mp hy with hy2 | hy2
          · rw [smapSet, if_pos rfl, smapSet, if_neg (hefresh y hy2)] at hmeq
            obtain ⟨c, hc, _, hcend⟩ := h1 y hy2
            rw [hc] at hmeq
            have hcc : col = c := by injection hmeq with h2
            subst hcc
            have : y.stop ≤ x.start := le_trans hcend hfree
            simp only [eventsOverlap, Bool.and_eq_false_iff, decide_eq_false_iff_not, not_lt]
            left
            omega
          · have : y = x := List.mem_singleton.mp hy2
            subst this
            exact absurd rfl hxy
      · exact hserest
      · exact hdisj2 m
      · exact hndrest
    | none =>
      have step : assignLoop (e :: rest) m ends =
          assignLoop rest (smapSet m e.id ends.length) (ends ++ [e.stop]) := by
        rw [assignLoop, hfind]
      rw [step, happend]
      apply ih (smapSet m e.id ends.length) (ends ++ [e.stop]) (processed ++ [e])
      · intro f hf
        rcases List.mem_append.mp hf with hf2 | hf2
        · obtain ⟨c, hc, hclen, hcend⟩ := h1 f hf2
          refine ⟨c, ?_, ?_, ?_⟩
          · rw [smapSet, if_neg (hefresh f hf2)]
            exact hc
          · simp only [List.length_append, List.length_singleton]
            omega
          · rw [List.getD_append ends [e.stop] 0 c hclen]
            exact hcend
        · have : f = e := List.mem_singleton.mp hf2
          subst this
          refine ⟨ends.length, by simp [smapSet], by simp, ?_⟩
          rw [List.getD_eq_getElem?_getD, List.getElem?_concat_length]
          rfl
      · intro x hx y hy hxy hmeq
        rcases List.mem_append.mp hx with hx2 | hx2
        · rcases List.mem_append.mp hy with hy2 | hy2
          · apply h3 x hx2 y hy2 hxy
            rwa [smapSet, if_neg (hefresh x hx2), smapSet, if_neg (hefresh y hy2)] at hmeq
          · have : y = e := List.mem_singleton.mp hy2
            subst this
            rw [smapSet, if_neg (hefresh x hx2), smapSet, if_pos rfl] at hmeq
            obtain ⟨c, hc, hclen, _⟩ := h1 x hx2
            rw [hc] at hmeq
            have : c = ends.length := by injection hmeq with h2
            omega
        · have : x = e := List.mem_singleton.mp hx2
          subst this
          rcases List.mem_append.mp hy with hy2 | hy2
          · rw [smapSet, if_pos rfl, smapSet, if_neg (hefresh y hy2)] at hmeq
            obtain ⟨c, hc, hclen, _⟩ := h1 y hy2
            rw [hc] at hmeq
            have : ends.length = c := by injection hmeq with h2
            omega
          · have : y = x := List.mem_singleton.mp hy2
            subst this
            exact absurd rfl hxy
      · exact hserest
      · exact hdisj2 m
      · exact hndrest

/-- Folding id-keyed writes never touches keys outside the list. -/
theorem foldl_smapSet_lookup_notin {α : Type} (f : CalendarEvent → α) :
    ∀ (l : List CalendarEvent) (m : SMap α) (k : String), k ∉ l.map (fun x => x.id) →
      (l.foldl (fun acc x => smapSet acc x.id (f x)) m) k = m k := by
  intro l
  induction l with
  | nil => intro m k _; rfl
  | cons a t ih =>
    intro m k hk
    have hk1 : k ≠ a.id := fun hc => hk (by simp [hc])
    have hk2 : k ∉ t.map (fun x => x.id) := fun hc => hk (by simp [hc])
    simp only [List.foldl_cons]
    rw [ih (smapSet m a.id (f a)) k hk2, smapSet, if_neg hk1]

/-- Folding id-keyed writes over a list with distinct ids stores each
event's own record under its id. -/
theorem foldl_smapSet_lookup {α : Type} (f : CalendarEvent → α) :
    ∀ (l : List CalendarEvent) (m : SMap α) (e : CalendarEvent), e ∈ l →
      (l.map (fun x => x.id)).Nodup →
      (l.foldl (fun acc x => smapSet acc x.id (f x)) m) e.id = some (f e) := by
  intro l
  induction l with
  | nil => intro m e he; cases he
  | cons a t ih =>
    intro m e he hnd
    have hparts : (∀ x ∈ t, ¬x.id = a.id) ∧ (t.map (fun x => x.id)).Nodup := by
      simpa using hnd
    rcases List.mem_cons.mp he with rfl | het
    · simp only [List.foldl_cons]
      rw [foldl_smapSet_lookup_notin f t (smapSet m e.id (f e)) e.id]
      · simp [smapSet]
      · intro hc
        obtain ⟨x, hx, hxid⟩ := List.mem_map.mp hc
        exact hparts.1 x hx hxid
    · simp only [List.foldl_cons]
      exact ih (smapSet m a.id (f a)) e het hparts.2

/-- Value of the Math.max-plus-one computation of the totalColumns
pass, on the maximum of the overlapping columns. -/
def tcOfMax : WithBot Nat → Nat
  | some mx => mx + 1
  | none => 0

/-- Record written by the totalColumns pass for one event. -/
def tcInfo (sorted : List CalendarEvent) (assignments : SMap Nat) (e : CalendarEvent) :
    ColumnInfo :=
  ⟨(assignments e.id).getD 0,
    tcOfMax ((sorted.filter (fun other => eventsOverlap e other)).map
        (fun f => (assignments f.id).getD 0)).maximum⟩

/-- The totalColumns pass is the id-keyed fold of tcInfo records. -/
theorem totalLoop_eq (sorted : List CalendarEvent) (assignments : SMap Nat) :
    totalLoop sorted assignments =
      sorted.foldl (fun m e => smapSet m e.id (tcInfo sorted assignments e)) (fun _ => none) :=
  rfl

/-- Lookup in the totalColumns pass for an event of the sorted list. -/
theorem totalLoop_lookup (sorted : List CalendarEvent) (assignments : SMap Nat)
    (hnd : (sorted.map (fun x => x.id)).Nodup) (e : CalendarEvent) (he : e ∈ sorted) :
    (totalLoop sorted assignments) e.id = some (tcInfo sorted assignments e) := by
  rw [totalLoop_eq]
  exact foldl_smapSet_lookup (tcInfo sorted assignments) sorted (fun _ => none) e he hnd

/-- Column of a positioned event comes from the assignColumns map. -/
theorem positionEvent_column (ci : SMap ColumnInfo) (sh eh : Int) (e : CalendarEvent) :
    (positionEvent ci sh eh e).column = ((ci e.id).getD ⟨0, 1⟩).column := rfl

/-- The totalColumns field of a positioned event comes from the
assignColumns map. -/
theorem positionEvent_totalColumns (ci : SMap ColumnInfo) (sh eh : Int) (e : CalendarEvent) :
    (positionEvent ci sh eh e).totalColumns = ((ci e.id).getD ⟨0, 1⟩).totalColumns := rfl

/-- Membership in the positioned output of useEventLayout. -/
theorem mem_positionedEvents (events : List CalendarEvent) (sh eh : Int) (pe : PositionedEvent) :
    pe ∈ (useEventLayout events sh eh).positionedEvents ↔
    ∃ e ∈ events.filter (fun x => !x.allDay),
      pe = positionEvent (assignColumns (events.filter (fun x => !x.allDay))) sh eh e := by
  unfold useEventLayout
  by_cases hemp : events.filter (fun x => !x.allDay) = []
  · simp [hemp]
  · simp only [if_neg hemp, List.mem_map]
    constructor
    · intro ⟨e, he, heq⟩
      exact ⟨e, he, heq.symm⟩
    · intro ⟨e, he, heq⟩
      exact ⟨e, he, heq.symm⟩

/-- Ids of the non-all-day events stay distinct. -/
theorem timed_nodup (events : List CalendarEvent)
    (hnd : (events.map (fun e => e.id)).Nodup) :
    ((events.filter (fun x => !x.allDay)).map (fun e => e.id)).Nodup :=
  List.Nodup.sublist (List.Sublist.map _ (List.filter_sublist events)) hnd

/-- Transported first-fit invariant for the sorted timed events. -/
theorem assignColumns_firstPass (tv : List CalendarEvent)
    (hse : ∀ e ∈ tv, e.start < e.stop) (hnd : (tv.map (fun e => e.id)).Nodup) :
    (∀ e ∈ sortLayout tv, ∃ c,
        (assignLoop (sortLayout tv) (fun _ => none) []).1 e.id = some c ∧
        c < (assignLoop (sortLayout tv) (fun _ => none) []).2.length ∧
        e.stop ≤ (assignLoop (sortLayout tv) (fun _ => none) []).2.getD c 0) ∧
    (∀ x ∈ sortLayout tv, ∀ y ∈ sortLayout tv, x.id ≠ y.id →
      (assignLoop (sortLayout tv) (fun _ => none) []).1 x.id =
        (assignLoop (sortLayout tv) (fun _ => none) []).1 y.id →
      eventsOverlap x y = false) := by
  have hperm : List.Perm (sortLayout tv) tv := List.perm_insertionSort _ _
  have hmem : ∀ e ∈ sortLayout tv, e ∈ tv := fun e he => hperm.mem_iff.mp he
  have hnds : ((sortLayout tv).map (fun e => e.id)).Nodup :=
    ((hperm.map (fun e => e.id)).nodup_iff).mpr hnd
  have h := assignLoop_invariant (sortLayout tv) (fun _ => none) [] []
    (fun e he => absurd he (List.not_mem_nil e))
    (fun x hx => absurd hx (List.not_mem_nil x))
    (fun e he => hse e (hmem e he))
    (fun x hx => absurd hx (List.not_mem_nil x))
    hnds
  simpa using h

/-- Claim C4: two positioned events with distinct ids that received the
same column index never overlap in time (input events have positive
duration and distinct ids). -/
theorem column_disjoint (events : List CalendarEvent) (startHour endHour : Int)
    (hse : ∀ e ∈ events, e.start < e.stop)
    (hnd : (events.map (fun e => e.id)).Nodup) :
    ∀ pe1 ∈ (useEventLayout events startHour endHour).positionedEvents,
    ∀ pe2 ∈ (useEventLayout events startHour endHour).positionedEvents,
      pe1.event.id ≠ pe2.event.id → pe1.column = pe2.column →
      eventsOverlap pe1.event pe2.event = false := by
  intro pe1 h1 pe2 h2 hid hcol
  obtain ⟨e1, he1, rfl⟩ := (mem_positionedEvents events startHour endHour pe1).mp h1
  obtain ⟨e2, he2, rfl⟩ := (mem_positionedEvents events startHour endHour pe2).mp h2
  have hne : events.filter (fun x => !x.allDay) ≠ [] := by
    intro hc
    rw [hc] at he1
    cases he1
  have hsetv : ∀ e ∈ events.filter (fun x => !x.allDay), e.start < e.stop :=
    fun e he => hse e (List.mem_of_mem_filter he)
  have hndtv := timed_nodup events hnd
  obtain ⟨inv1, inv3⟩ := assignColumns_firstPass (events.filter (fun x => !x.allDay)) hsetv hndtv
  have hperm : List.Perm (sortLayout (events.filter (fun x => !x.allDay)))
      (events.filter (fun x => !x.allDay)) := List.perm_insertionSort _ _
  have hnds : ((sortLayout (events.filter (fun x => !x.allDay))).map (fun e => e.id)).Nodup :=
    ((hperm.map (fun e => e.id)).nodup_iff).mpr hndtv
  have he1s : e1 ∈ sortLayout (events.filter (fun x => !x.allDay)) := hperm.mem_iff.mpr he1
  have he2s : e2 ∈ sortLayout (events.filter (fun x => !x.allDay)) := hperm.mem_iff.mpr he2
  have hac : assignColumns (events.filter (fun x => !x.allDay)) =
      totalLoop (sortLayout (events.filter (fun x => !x.allDay)))
        (assignLoop (sortLayout (events.filter (fun x => !x.allDay))) (fun _ => none) []).1 := by
    rw [assignColumns, if_neg hne]
  obtain ⟨c1, hc1, _, _⟩ := inv1 e1 he1s
  obtain ⟨c2, hc2, _, _⟩ := inv1 e2 he2s
  have hl1 := totalLoop_lookup (sortLayout (events.filter (fun x => !x.allDay)))
    (assignLoop (sortLayout (events.filter (fun x => !x.allDay))) (fun _ => none) []).1
    hnds e1 he1s
  have hl2 := totalLoop_lookup (sortLayout (events.filter (fun x => !x.allDay)))
    (assignLoop (sortLayout (events.filter (fun x => !x.allDay))) (fun _ => none) []).1
    hnds e2 he2s
  have h1c : (positionEvent (assignColumns (events.filter (fun x => !x.allDay)))
      startHour endHour e1).column = c1 := by
    rw [positionEvent_column, hac, hl1]
    simp [tcInfo, hc1]
  have h2c : (positionEvent (assignColumns (events.filter (fun x => !x.allDay)))
      startHour endHour e2).column = c2 := by
    rw [positionEvent_column, hac, hl2]
    simp [tcInfo, hc2]
  rw [h1c, h2c] at hcol
  exact inv3 e1 he1s e2 he2s hid (by rw [hc1, hc2, hcol])

/-- Claim C4, witness at a concrete input. -/
theorem column_disjoint_witness :
    (∀ e ∈ witEvents, e.start < e.stop) ∧
    (witEvents.map (fun e => e.id)).Nodup ∧
    (∀ pe1 ∈ (useEventLayout witEvents 0 24).positionedEvents,
     ∀ pe2 ∈ (useEventLayout witEvents 0 24).positionedEvents,
      pe1.event.id ≠ pe2.event.id → pe1.column = pe2.column →
      eventsOverlap pe1.event pe2.event = false) :=
  ⟨by decide, by decide, column_disjoint witEvents 0 24 (by decide) (by decide)⟩

/-- Properties of the running maximum fold on naturals. -/
theorem foldl_max_spec : ∀ (l : List Nat) (a : Nat),
    (∀ x ∈ l, x ≤ l.foldl max a) ∧ a ≤ l.foldl max a ∧
    (l.foldl max a = a ∨ l.foldl max a ∈ l) := by
  intro l
  induction l with
  | nil => intro a; exact ⟨fun x hx => absurd hx (List.not_mem_nil x), le_refl a, Or.inl rfl⟩
  | cons b t ih =>
    intro a
    obtain ⟨ih1, ih2, ih3⟩ := ih (max a b)
    simp only [List.foldl_cons]
    refine ⟨?_, ?_, ?_⟩
    · intro x hx
      rcases List.mem_cons.mp hx with rfl | hx2
      · exact le_trans (le_max_right a x) ih2
      · exact ih1 x hx2
    · exact le_trans (le_max_left a b) ih2
    · rcases ih3 with h | h
      · rcases max_choice a b with hm | hm
        · exact Or.inl (h.trans hm)
        · refine Or.inr ?_
          rw [h, hm]
          exact List.mem_cons_self b t
      · exact Or.inr (List.mem_cons_of_mem b h)

/-- The running maximum fold is invariant under permutation. -/
theorem foldl_max_perm (l1 l2 : List Nat) (hp : List.Perm l1 l2) :
    l1.foldl max 0 = l2.foldl max 0 := by
  have h12 : l1.foldl max 0 ≤ l2.foldl max 0 := by
    rcases (foldl_max_spec l1 0).2.2 with h | h
    · rw [h]; exact Nat.zero_le _
    · exact (foldl_max_spec l2 0).1 _ (hp.mem_iff.mp h)
  have h21 : l2.foldl max 0 ≤ l1.foldl max 0 := by
    rcases (foldl_max_spec l2 0).2.2 with h | h
    · rw [h]; exact Nat.zero_le _
    · exact (foldl_max_spec l1 0).1 _ (hp.mem_iff.mpr h)
  omega

/-- On a nonempty list, the Math.max-plus-one computation equals one
plus the running maximum fold. -/
theorem tcOfMax_eq_foldl (cols : List Nat) (hne : cols ≠ []) :
    tcOfMax cols.maximum = 1 + cols.foldl max 0 := by
  match hm : cols.maximum with
  | none => exact absurd (List.maximum_eq_none.mp hm) hne
  | some mx =>
    have hmem : mx ∈ cols := List.maximum_mem hm
    have hle1 : mx ≤ cols.foldl max 0 := (foldl_max_spec cols 0).1 mx hmem
    have hle2 : cols.foldl max 0 ≤ mx := by
      rcases (foldl_max_spec cols 0).2.2 with h | h
      · rw [h]; exact Nat.zero_le mx
      · exact List.le_maximum_of_mem h hm
    have heq : mx = cols.foldl max 0 := le_antisymm hle1 hle2
    simp [tcOfMax, heq]
    omega

/-- The positioned output of useEventLayout, as a map over the timed
events (both branches of the source agree on this shape). -/
theorem positionedEvents_eq (events : List CalendarEvent) (sh eh : Int) :
    (useEventLayout events sh eh).positionedEvents =
      (events.filter (fun x => !x.allDay)).map
        (positionEvent (assignColumns (events.filter (fun x => !x.allDay))) sh eh) := by
  unfold useEventLayout
  by_cases h : events.filter (fun x => !x.allDay) = []
  · simp [h]
  · rw [if_neg h]

/-- Claim C2, amended: each positioned event's totalColumns equals one
plus the greatest column index among the positioned events that
overlap it (itself included); it is a direct-neighborhood maximum, not
a cluster-wide one. -/
theorem totalColumns_neighborhood (events : List CalendarEvent) (startHour endHour : Int)
    (hse : ∀ e ∈ events, e.start < e.stop)
    (hnd : (events.map (fun e => e.id)).Nodup) :
    ∀ pe ∈ (useEventLayout events startHour endHour).positionedEvents,
      pe.totalColumns = 1 +
        (((useEventLayout events startHour endHour).positionedEvents.filter
          (fun q => eventsOverlap pe.event q.event)).map (fun q => q.column)).foldl max 0 := by
  intro pe hpe
  obtain ⟨e, he, rfl⟩ := (mem_positionedEvents events startHour endHour pe).mp hpe
  have hne : events.filter (fun x => !x.allDay) ≠ [] := by
    intro hc
    rw [hc] at he
    cases he
  have hsetv : ∀ x ∈ events.filter (fun x => !x.allDay), x.start < x.stop :=
    fun x hx => hse x (List.mem_of_mem_filter hx)
  have hndtv := timed_nodup events hnd
  have hperm : List.Perm (sortLayout (events.filter (fun x => !x.allDay)))
      (events.filter (fun x => !x.allDay)) := List.perm_insertionSort _ _
  have hnds : ((sortLayout (events.filter (fun x => !x.allDay))).map (fun e => e.id)).Nodup :=
    ((hperm.map (fun e => e.id)).nodup_iff).mpr hndtv
  have hes : e ∈ sortLayout (events.filter (fun x => !x.allDay)) := hperm.mem_iff.mpr he
  have hac : assignColumns (events.filter (fun x => !x.allDay)) =
      totalLoop (sortLayout (events.filter (fun x => !x.allDay)))
        (assignLoop (sortLayout (events.filter (fun x => !x.allDay))) (fun _ => none) []).1 := by
    rw [assignColumns, if_neg hne]
  have hovee : eventsOverlap e e = true := by
    have := hsetv e he
    simp only [eventsOverlap, Bool.and_eq_true, decide_eq_true_eq]
    omega
  have hlookup : ∀ f ∈ events.filter (fun x => !x.allDay),
      (assignColumns (events.filter (fun x => !x.allDay))) f.id =
        some (tcInfo (sortLayout (events.filter (fun x => !x.allDay)))
          (assignLoop (sortLayout (events.filter (fun x => !x.allDay))) (fun _ => none) []).1 f) := by
    intro f hf
    rw [hac]
    exact totalLoop_lookup _ _ hnds f (hperm.mem_iff.mpr hf)
  have hlhs : (positionEvent (assignColumns (events.filter (fun x => !x.allDay)))
      startHour endHour e).totalColumns =
      tcOfMax (((sortLayout (events.filter (fun x => !x.allDay))).filter
          (fun other => eventsOverlap e other)).map
        (fun f => ((assignLoop (sortLayout (events.filter (fun x => !x.allDay)))
          (fun _ => none) []).1 f.id).getD 0)).maximum := by
    rw [positionEvent_totalColumns, hlookup e he]
    rfl
  have hnonempty : ((sortLayout (events.filter (fun x => !x.allDay))).filter
      (fun other => eventsOverlap e other)).map
        (fun f => ((assignLoop (sortLayout (events.filter (fun x => !x.allDay)))
          (fun _ => none) []).1 f.id).getD 0) ≠ [] := by
    apply List.ne_nil_of_mem
    refine List.mem_map_of_mem _ (List.mem_filter.mpr ⟨hes, hovee⟩)
  have hrhs : ((useEventLayout events startHour endHour).positionedEvents.filter
        (fun q => eventsOverlap (positionEvent (assignColumns
          (events.filter (fun x => !x.allDay))) startHour endHour e).event q.event)).map
        (fun q => q.column) =
      ((events.filter (fun x => !x.allDay)).filter
        (fun f => eventsOverlap e f)).map
        (fun f => ((assignLoop (sortLayout (events.filter (fun x => !x.allDay)))
          (fun _ => none) []).1 f.id).getD 0) := by
    rw [positionedEvents_eq, List.filter_map, List.map_map]
    have hpred : ((events.filter (fun x => !x.allDay)).filter
        ((fun q => eventsOverlap (positionEvent (assignColumns
          (events.filter (fun x => !x.allDay))) startHour endHour e).event q.event) ∘
          positionEvent (assignColumns (events.filter (fun x => !x.allDay)))
            startHour endHour)) =
        ((events.filter (fun x => !x.allDay)).filter (fun f => eventsOverlap e f)) := by
      apply List.filter_congr
      intro f _
      rfl
    rw [hpred]
    apply List.map_congr_left
    intro f hf
    have hftv : f ∈ events.filter (fun x => !x.allDay) := List.mem_of_mem_filter hf
    show (positionEvent (assignColumns (events.filter (fun x => !x.allDay)))
        startHour endHour f).column = _
    rw [positionEvent_column, hlookup f hftv]
    rfl
  rw [hlhs, hrhs, tcOfMax_eq_foldl _ hnonempty]
  congr 1
  apply foldl_max_perm
  exact (hperm.filter _).map _

/-- Claim C2, amended, witness at the counterexample input. -/
theorem totalColumns_neighborhood_witness :
    (∀ e ∈ colEvents, e.start < e.stop) ∧
    (colEvents.map (fun e => e.id)).Nodup ∧
    (∀ pe ∈ (useEventLayout colEvents 0 24).positionedEvents,
      pe.totalColumns = 1 +
        (((useEventLayout colEvents 0 24).positionedEvents.filter
          (fun q => eventsOverlap pe.event q.event)).map (fun q => q.column)).foldl max 0) :=
  ⟨by decide, by decide, totalColumns_neighborhood colEvents 0 24 (by decide) (by decide)⟩

/-- Well-formedness of one containment-map entry: a root exactly when
at layer 0, and any recorded parent is a containing event of lower or
equal priority number drawn from the processed list. -/
def ContainOk (sorted : List CalendarEvent) (getP : CalendarEvent → Int) (k : String)
    (info : ContainInfo) : Prop :=
  (info.parentId = none ↔ info.layer = 0) ∧
  ∀ pid, info.parentId = some pid → ∃ p ∈ sorted, ∃ q ∈ sorted, p.id = pid ∧ q.id = k ∧
    eventContains p q = true ∧ getP p ≤ getP q

/-- The default entry is well-formed. -/
theorem containOk_default (sorted : List CalendarEvent) (getP : CalendarEvent → Int)
    (k : String) : ContainOk sorted getP k defaultInfo := by
  constructor
  · simp [defaultInfo]
  · intro pid hpid
    simp [defaultInfo] at hpid

/-- One containment step keeps every entry well-formed. -/
theorem containStep_ok (sorted : List CalendarEvent) (getP : CalendarEvent → Int)
    (m : SMap ContainInfo) (prevRev : List CalendarEvent) (e : CalendarEvent)
    (hsub : ∀ p ∈ prevRev, p ∈ sorted) (he : e ∈ sorted)
    (hpri : ∀ p ∈ prevRev, getP p ≤ getP e)
    (hm : ∀ k info, m k = some info → ContainOk sorted getP k info) :
    ∀ k info, (containStep m prevRev e) k = some info → ContainOk sorted getP k info := by
  intro k info hk
  rw [containStep] at hk
  match hfind : prevRev.find? (fun p => eventContains p e) with
  | none =>
    rw [hfind] at hk
    exact hm k info hk
  | some p =>
    rw [hfind] at hk
    have hpmem : p ∈ prevRev := List.mem_of_find?_eq_some hfind
    have hcont : eventContains p e = true := by
      simpa using List.find?_some hfind
    simp only [smapSet] at hk
    by_cases hkp : k = p.id
    · rw [if_pos hkp] at hk
      injection hk with hk
      subst hk
      match hmp : m p.id with
      | some pi =>
        obtain ⟨hiff, hpar⟩ := hm p.id pi hmp
        subst hkp
        simp only [hmp, Option.getD_some]
        exact ⟨hiff, fun pid hpid => by
          obtain ⟨p2, hp2, q2, hq2, hid2, hqid2, hc2, hpri2⟩ := hpar pid hpid
          exact ⟨p2, hp2, q2, hq2, hid2, hqid2, hc2, hpri2⟩⟩
      | none =>
        subst hkp
        simp only [hmp, Option.getD_none]
        constructor
        · simp [defaultInfo]
        · intro pid hpid
          simp [defaultInfo] at hpid
    · rw [if_neg hkp] at hk
      by_cases hke : k = e.id
      · rw [if_pos hke] at hk
        injection hk with hk
        subst hk
        constructor
        · simp
        · intro pid hpid
          simp only [Option.some_inj] at hpid
          subst hke
          exact ⟨p, hsub p hpmem, e, he, by simpa using hpid.symm ▸ rfl, rfl, hcont,
            hpri p hpmem⟩
      · rw [if_neg hke] at hk
        exact hm k info hk

/-- Every entry stays well-formed along the containment loop. -/
theorem containLoop_ok (sorted : List CalendarEvent) (getP : CalendarEvent → Int)
    (hsorted : List.Sorted (PriLE getP) sorted) :
    ∀ (remaining prevRev : List CalendarEvent) (m : SMap ContainInfo),
      prevRev.reverse ++ remaining = sorted →
      (∀ k info, m k = some info → ContainOk sorted getP k info) →
      ∀ k info, (containLoop m prevRev remaining) k = some info →
        ContainOk sorted getP k info := by
  intro remaining
  induction remaining with
  | nil => intro prevRev m _ hm; exact hm
  | cons e rest ih =>
    intro prevRev m heq hm
    rw [containLoop]
    refine ih (e :: prevRev) (containStep m prevRev e) ?_ ?_
    · rw [List.reverse_cons, List.append_assoc]
      simpa using heq
    · apply containStep_ok sorted getP m prevRev e
      · intro p hp
        rw [← heq]
        exact List.mem_append_left _ (List.mem_reverse.mpr hp)
      · rw [← heq]
        exact List.mem_append_right _ (List.mem_cons_self e rest)
      · intro p hp
        rw [← heq] at hsorted
        have := (List.pairwise_append.mp hsorted).2.2
        exact this p (List.mem_reverse.mpr hp) e (List.mem_cons_self e rest)
      · exact hm

/-- Lookups in the initial containment map are default entries (or
come from the seed map). -/
theorem initMap_lookup : ∀ (l : List CalendarEvent) (m : SMap ContainInfo) (k : String)
    (info : ContainInfo),
    (l.foldl (fun mm e => smapSet mm e.id defaultInfo) m) k = some info →
    info = defaultInfo ∨ m k = some info := by
  intro l
  induction l with
  | nil => intro m k info h; exact Or.inr h
  | cons a t ih =>
    intro m k info h
    simp only [List.foldl_cons] at h
    rcases ih (smapSet m a.id defaultInfo) k info h with h2 | h2
    · exact Or.inl h2
    · rw [smapSet] at h2
      by_cases hka : k = a.id
      · rw [if_pos hka] at h2
        injection h2 with h2
        exact Or.inl h2.symm
      · rw [if_neg hka] at h2
        exact Or.inr h2

/-- Every entry of the containment map built by calculateContainment
is well-formed with respect to the priority-sorted event list. -/
theorem calculateContainment_ok (events : List CalendarEvent) (getP : CalendarEvent → Int) :
    ∀ k info, (calculateContainment events getP) k = some info →
      ContainOk (sortByPriority events getP) getP k info := by
  intro k info hk
  rw [calculateContainment] at hk
  refine containLoop_ok (sortByPriority events getP) getP
    (List.sorted_insertionSort (PriLE getP) events)
    (sortByPriority events getP) [] _ (by simp) ?_ k info hk
  intro k2 info2 h2
  rcases initMap_lookup (sortByPriority events getP) (fun _ => none) k2 info2 h2 with h3 | h3
  · exact h3 ▸ containOk_default _ getP k2
  · cases h3

/-- Claim C6: with maxDepth at least 1, an output event of the
Priority Stack Engine has reported layer 0 exactly when its parentId
is null. -/
theorem stack_layer_zero_iff_root (events : List CalendarEvent) (opts : StackOptions)
    (hmd : 1 ≤ opts.maxDepth) :
    ∀ se ∈ (calculateStacks events opts).stackedEvents,
      (se.layer = 0 ↔ se.parentId = none) := by
  intro se hse
  unfold calculateStacks at hse
  by_cases h : events = []
  · simp [h] at hse
  · simp only [if_neg h] at hse
    obtain ⟨l, hl, hsel⟩ := List.mem_flatten.mp hse
    obtain ⟨g, _, rfl⟩ := List.mem_map.mp hl
    unfold processGroup at hsel
    match hg : g.events with
    | [e] =>
      rw [hg] at hsel
      simp only [List.mem_singleton] at hsel
      subst hsel
      simp
    | [] =>
      rw [hg] at hsel
      simp at hsel
    | e :: f :: rest =>
      rw [hg] at hsel
      obtain ⟨x, _, rfl⟩ := List.mem_map.mp hsel
      simp only
      match hmx : (calculateContainment (e :: f :: rest) opts.getPriority) x.id with
      | none =>
        simp only [hmx, Option.getD_none]
        simp [defaultInfo]
      | some info0 =>
        obtain ⟨hiff, _⟩ :=
          calculateContainment_ok (e :: f :: rest) opts.getPriority x.id info0 hmx
        simp only [hmx, Option.getD_some]
        constructor
        · intro hmin
          have : info0.layer = 0 := by
            have h2 := Nat.min_eq_zero_iff.mp hmin
            omega
          exact hiff.mpr this
        · intro hpar
          have : info0.layer = 0 := hiff.mp hpar
          simp [this]

/-- Claim C6, witness at the nested five-event input. -/
theorem stack_layer_zero_iff_root_witness :
    1 ≤ nestOpts.maxDepth ∧
    (∀ se ∈ (calculateStacks nestEvents nestOpts).stackedEvents,
      (se.layer = 0 ↔ se.parentId = none)) :=
  ⟨by decide, stack_layer_zero_iff_root nestEvents nestOpts (by decide)⟩

/-- The flattened groups of findOverlapGroups are exactly the
start-sorted input. -/
theorem groups_flatten_eq (events : List CalendarEvent) :
    ((findOverlapGroups events).map StackGroup.events).flatten = sortStart events := by
  match hs : sortStart events with
  | [] =>
    have : findOverlapGroups events = [] := by rw [findOverlapGroups, hs]
    rw [this]
    rfl
  | e0 :: rest =>
    have : findOverlapGroups events = sweepGroups rest [e0] e0.stop := by
      rw [findOverlapGroups, hs]
    rw [this, sweepGroups_flatten]
    rfl

/-- Each group of findOverlapGroups keeps distinct event ids when the
input has distinct ids. -/
theorem group_ids_nodup (events : List CalendarEvent)
    (hnd : (events.map (fun e => e.id)).Nodup)
    (g : StackGroup) (hg : g ∈ findOverlapGroups events) :
    (g.events.map (fun e => e.id)).Nodup := by
  have hsub : g.events.Sublist ((findOverlapGroups events).map StackGroup.events).flatten :=
    List.sublist_flatten_of_mem (List.mem_map_of_mem StackGroup.events hg)
  rw [groups_flatten_eq] at hsub
  have hperm : List.Perm (sortStart events) events := List.perm_insertionSort _ _
  have hnds : ((sortStart events).map (fun e => e.id)).Nodup :=
    (hperm.map (fun e => e.id)).nodup_iff.mpr hnd
  exact List.Nodup.sublist (hsub.map (fun e => e.id)) hnds

/-- Members of a group of findOverlapGroups are input events. -/
theorem group_mem_sub (events : List CalendarEvent)
    (g : StackGroup) (hg : g ∈ findOverlapGroups events) :
    ∀ x ∈ g.events, x ∈ events := by
  intro x hx
  have hsub : g.events.Sublist ((findOverlapGroups events).map StackGroup.events).flatten :=
    List.sublist_flatten_of_mem (List.mem_map_of_mem StackGroup.events hg)
  rw [groups_flatten_eq] at hsub
  exact (List.perm_insertionSort StartLE events).mem_iff.mp (hsub.mem hx)

/-- An input with a group is nonempty. -/
theorem events_ne_nil_of_group (events : List CalendarEvent)
    (g : StackGroup) (hg : g ∈ findOverlapGroups events) : events ≠ [] := by
  intro hc
  subst hc
  have : findOverlapGroups [] = [] := rfl
  rw [this] at hg
  cases hg

/-- Entries emitted per group belong to the overall stack output. -/
theorem mem_stackedEvents_of (events : List CalendarEvent) (opts : StackOptions)
    (g : StackGroup) (hg : g ∈ findOverlapGroups events) (se : StackedEvent)
    (hse : se ∈ processGroup opts g) :
    se ∈ (calculateStacks events opts).stackedEvents := by
  have hne := events_ne_nil_of_group events g hg
  unfold calculateStacks
  rw [if_neg hne]
  exact List.mem_flatten.mpr ⟨processGroup opts g, List.mem_map_of_mem _ hg, hse⟩

/-- In a group of two or more events, every member yields an output
entry whose parent and layer come from the containment map. -/
theorem processGroup_mem_multi (opts : StackOptions) (g : StackGroup)
    (e1 f1 : CalendarEvent) (rest : List CalendarEvent) (hg : g.events = e1 :: f1 :: rest) :
    ∀ x ∈ g.events, ∃ se ∈ processGroup opts g, se.event = x ∧
      se.parentId = ((calculateContainment g.events opts.getPriority x.id).getD
        defaultInfo).parentId ∧
      se.layer = min ((calculateContainment g.events opts.getPriority x.id).getD
        defaultInfo).layer opts.maxDepth := by
  intro x hx
  unfold processGroup
  rw [hg] at hx ⊢
  refine ⟨_, List.mem_map_of_mem _ hx, rfl, rfl, rfl⟩

/-- A containment step for another event never turns a root entry into
a child: child writes target the processed event's id and parent
writes keep parentId and layer. -/
theorem containStep_keeps_root (m : SMap ContainInfo) (prevRev : List CalendarEvent)
    (f : CalendarEvent) (k : String) (hkf : f.id ≠ k) (info : ContainInfo)
    (hm : m k = some info) (hp : info.parentId = none) (hl : info.layer = 0) :
    ∃ info2, (containStep m prevRev f) k = some info2 ∧
      info2.parentId = none ∧ info2.layer = 0 := by
  rw [containStep]
  match hfind : prevRev.find? (fun p => eventContains p f) with
  | none => exact ⟨info, hm, hp, hl⟩
  | some p0 =>
    simp only [smapSet]
    by_cases hkp : k = p0.id
    · rw [if_pos hkp]
      subst hkp
      rw [hm]
      exact ⟨_, rfl, by simpa using hp, by simpa using hl⟩
    · rw [if_neg hkp, if_neg (fun hc => hkf hc.symm)]
      exact ⟨info, hm, hp, hl⟩

/-- The containment loop keeps a root entry as long as the key is not
the id of a remaining event. -/
theorem containLoop_keeps_root :
    ∀ (remaining prevRev : List CalendarEvent) (m : SMap ContainInfo) (k : String),
      (∀ f ∈ remaining, f.id ≠ k) →
      ∀ info, m k = some info → info.parentId = none → info.layer = 0 →
      ∃ info2, (containLoop m prevRev remaining) k = some info2 ∧
        info2.parentId = none ∧ info2.layer = 0 := by
  intro remaining
  induction remaining with
  | nil => intro prevRev m k _ info hm hp hl; exact ⟨info, hm, hp, hl⟩
  | cons f rest ih =>
    intro prevRev m k hids info hm hp hl
    rw [containLoop]
    obtain ⟨info1, hm1, hp1, hl1⟩ :=
      containStep_keeps_root m prevRev f k (hids f (List.mem_cons_self f rest)) info hm hp hl
    exact ih (f :: prevRev) (containStep m prevRev f) k
      (fun x hx => hids x (List.mem_cons_of_mem f hx)) info1 hm1 hp1 hl1

/-- An event contained by none of the events processed before it stays
a root with layer 0 through the containment loop. -/
theorem containLoop_root_of_no_container :
    ∀ (mid : List CalendarEvent) (post prevRev : List CalendarEvent)
      (m : SMap ContainInfo) (e : CalendarEvent),
      (∀ f ∈ mid, f.id ≠ e.id) → (∀ f ∈ post, f.id ≠ e.id) →
      (∀ p ∈ prevRev, eventContains p e = false) →
      (∀ p ∈ mid, eventContains p e = false) →
      ∀ info, m e.id = some info → info.parentId = none → info.layer = 0 →
      ∃ info2, (containLoop m prevRev (mid ++ e :: post)) e.id = some info2 ∧
        info2.parentId = none ∧ info2.layer = 0 := by
  intro mid
  induction mid with
  | nil =>
    intro post prevRev m e _ hpost hprev _ info hm hp hl
    simp only [List.nil_append]
    rw [containLoop]
    have hstep : containStep m prevRev e = m := by
      rw [containStep]
      have : prevRev.find? (fun p => eventContains p e) = none := by
        rw [List.find?_eq_none]
        intro x hx
        simp [hprev x hx]
      rw [this]
    rw [hstep]
    exact containLoop_keeps_root post (e :: prevRev) m e.id hpost info hm hp hl
  | cons f mid2 ih =>
    intro post prevRev m e hmid hpost hprev hmidc info hm hp hl
    simp only [List.cons_append]
    rw [containLoop]
    obtain ⟨info1, hm1, hp1, hl1⟩ := containStep_keeps_root m prevRev f e.id
      (hmid f (List.mem_cons_self f mid2)) info hm hp hl
    refine ih post (f :: prevRev) (containStep m prevRev f) e
      (fun x hx => hmid x (List.mem_cons_of_mem f hx)) hpost ?_
      (fun x hx => hmidc x (List.mem_cons_of_mem f hx)) info1 hm1 hp1 hl1
    intro p hp2
    rcases List.mem_cons.mp hp2 with rfl | hp3
    · exact hmidc p (List.mem_cons_self p mid2)
    · exact hprev p hp3

/-- A group member that is a root in the containment map (or lives in
a singleton group) yields an output entry at layer 0 with no parent. -/
theorem processGroup_root_entry (opts : StackOptions) (g : StackGroup) (x : CalendarEvent)
    (hx : x ∈ g.events)
    (hyp : g.events.length = 1 ∨
      ((calculateContainment g.events opts.getPriority x.id).getD defaultInfo).parentId
        = none ∧
      ((calculateContainment g.events opts.getPriority x.id).getD defaultInfo).layer = 0) :
    ∃ se ∈ processGroup opts g, se.event = x ∧ se.layer = 0 ∧ se.parentId = none := by
  unfold processGroup
  match hshape : g.events with
  | [e] =>
    have hx2 : x = e := by
      rw [hshape] at hx
      simpa using hx
    subst hx2
    exact ⟨_, List.mem_singleton_self _, rfl, rfl, rfl⟩
  | [] =>
    rw [hshape] at hx
    cases hx
  | e1 :: f1 :: rest =>
    rcases hyp with hlen | ⟨hpar, hlay⟩
    · rw [hshape] at hlen
      simp at hlen
    · rw [hshape] at hpar hlay hx
      refine ⟨_, List.mem_map_of_mem _ hx, rfl, ?_, ?_⟩
      · simp only
        rw [hlay]
        exact Nat.zero_min _
      · simp only
        exact hpar

/-- An event of a cluster contained by none of the events before it in
the per-cluster priority order yields a root output entry at layer 0
with null parent. -/
theorem root_entry_at (events : List CalendarEvent) (opts : StackOptions)
    (hnd : (events.map (fun e => e.id)).Nodup) :
    ∀ g ∈ findOverlapGroups events,
     ∀ i, ∀ hi : i < (sortByPriority g.events opts.getPriority).length,
      (∀ j, ∀ hj : j < i, eventContains
          ((sortByPriority g.events opts.getPriority).get ⟨j, Nat.lt_trans hj hi⟩)
          ((sortByPriority g.events opts.getPriority).get ⟨i, hi⟩) = false) →
      ∃ sB ∈ (calculateStacks events opts).stackedEvents,
        sB.event = (sortByPriority g.events opts.getPriority).get ⟨i, hi⟩ ∧
        sB.layer = 0 ∧ sB.parentId = none := by
  intro g hg i hi hnone
  have hemem : (sortByPriority g.events opts.getPriority).get ⟨i, hi⟩ ∈
      sortByPriority g.events opts.getPriority := List.get_mem _ _ hi
  have hordperm : List.Perm (sortByPriority g.events opts.getPriority) g.events := by
    rw [sortByPriority]
    exact List.perm_insertionSort _ _
  have heg : (sortByPriority g.events opts.getPriority).get ⟨i, hi⟩ ∈ g.events :=
    hordperm.mem_iff.mp hemem
  by_cases hlen : g.events.length = 1
  · obtain ⟨sB, hsBmem, hsBev, hsBlay, hsBpar⟩ :=
      processGroup_root_entry opts g _ heg (Or.inl hlen)
    exact ⟨sB, mem_stackedEvents_of events opts g hg sB hsBmem, hsBev, hsBlay, hsBpar⟩
  · have hgnd := group_ids_nodup events hnd g hg
    have hordnd : ((sortByPriority g.events opts.getPriority).map (fun e => e.id)).Nodup :=
      ((hordperm.map (fun e => e.id)).nodup_iff).mpr hgnd
    have htake : (sortByPriority g.events opts.getPriority).take i ++
        (sortByPriority g.events opts.getPriority).get ⟨i, hi⟩ ::
        (sortByPriority g.events opts.getPriority).drop (i + 1) =
        sortByPriority g.events opts.getPriority := by
      rw [List.get_eq_getElem, List.getElem_cons_drop, List.take_append_drop]
    have hndsplit : (((sortByPriority g.events opts.getPriority).take i ++
        (sortByPriority g.events opts.getPriority).get ⟨i, hi⟩ ::
        (sortByPriority g.events opts.getPriority).drop (i + 1)).map
          (fun e => e.id)).Nodup := by
      rw [htake]
      exact hordnd
    rw [List.map_append, List.map_cons, List.nodup_append] at hndsplit
    obtain ⟨hndA, hndB, hdisjAB⟩ := hndsplit
    have hmid_ids : ∀ f ∈ (sortByPriority g.events opts.getPriority).take i,
        f.id ≠ ((sortByPriority g.events opts.getPriority).get ⟨i, hi⟩).id := by
      intro f hf hc
      exact hdisjAB (List.mem_map_of_mem (fun e => e.id) hf)
        (hc ▸ List.mem_cons_self _ _)
    have hpost_ids : ∀ f ∈ (sortByPriority g.events opts.getPriority).drop (i + 1),
        f.id ≠ ((sortByPriority g.events opts.getPriority).get ⟨i, hi⟩).id := by
      intro f hf hc
      exact (List.nodup_cons.mp hndB).1 (hc ▸ List.mem_map_of_mem (fun e => e.id) hf)
    have hmidc : ∀ p ∈ (sortByPriority g.events opts.getPriority).take i,
        eventContains p ((sortByPriority g.events opts.getPriority).get ⟨i, hi⟩) = false := by
      intro p hp
      obtain ⟨j, hjm, hpj⟩ := List.mem_take_iff_getElem.mp hp
      have hji : j < i := lt_of_lt_of_le hjm (min_le_left _ _)
      have := hnone j hji
      rw [List.get_eq_getElem, List.get_eq_getElem] at this
      rw [← hpj]
      exact this
    have hcc : calculateContainment g.events opts.getPriority =
        containLoop ((sortByPriority g.events opts.getPriority).foldl
          (fun m e => smapSet m e.id defaultInfo) (fun _ => none)) []
          (sortByPriority g.events opts.getPriority) := rfl
    have hinit : ((sortByPriority g.events opts.getPriority).foldl
        (fun m e => smapSet m e.id defaultInfo) (fun _ => none))
        ((sortByPriority g.events opts.getPriority).get ⟨i, hi⟩).id =
        some defaultInfo :=
      foldl_smapSet_lookup (fun _ => defaultInfo) _ (fun _ => none) _ hemem hordnd
    obtain ⟨info2, hinfo2, hp2, hl2⟩ := containLoop_root_of_no_container
      ((sortByPriority g.events opts.getPriority).take i)
      ((sortByPriority g.events opts.getPriority).drop (i + 1)) []
      ((sortByPriority g.events opts.getPriority).foldl
        (fun m e => smapSet m e.id defaultInfo) (fun _ => none))
      ((sortByPriority g.events opts.getPriority).get ⟨i, hi⟩)
      hmid_ids hpost_ids (fun p hp => absurd hp (List.not_mem_nil p)) hmidc
      defaultInfo hinit rfl rfl
    rw [htake, ← hcc] at hinfo2
    obtain ⟨sB, hsBmem, hsBev, hsBlay, hsBpar⟩ :=
      processGroup_root_entry opts g _ heg
        (Or.inr (by rw [hinfo2]; simp only [Option.getD_some]; exact ⟨hp2, hl2⟩))
    exact ⟨sB, mem_stackedEvents_of events opts g hg sB hsBmem, hsBev, hsBlay, hsBpar⟩

/-- Claim C5: in the Priority Stack Engine output (ids unique), any
recorded parent contains its child under the closed-interval test and
has lower or equal priority number; and an event contained by none of
the events processed before it (in the per-cluster priority order)
becomes a root with layer 0 and null parentId. -/
theorem stack_parent_valid (events : List CalendarEvent) (opts : StackOptions)
    (hnd : (events.map (fun e => e.id)).Nodup) :
    (∀ sB ∈ (calculateStacks events opts).stackedEvents, ∀ pid,
      sB.parentId = some pid →
      ∃ sA ∈ (calculateStacks events opts).stackedEvents, sA.event.id = pid ∧
        eventContains sA.event sB.event = true ∧
        opts.getPriority sA.event ≤ opts.getPriority sB.event) ∧
    (∀ g ∈ findOverlapGroups events,
     ∀ i, ∀ hi : i < (sortByPriority g.events opts.getPriority).length,
      (∀ j, ∀ hj : j < i, eventContains
          ((sortByPriority g.events opts.getPriority).get ⟨j, Nat.lt_trans hj hi⟩)
          ((sortByPriority g.events opts.getPriority).get ⟨i, hi⟩) = false) →
      ∃ sB ∈ (calculateStacks events opts).stackedEvents,
        sB.event = (sortByPriority g.events opts.getPriority).get ⟨i, hi⟩ ∧
        sB.layer = 0 ∧ sB.parentId = none) := by
  constructor
  · intro sB hsB pid hpid
    unfold calculateStacks at hsB
    by_cases h : events = []
    · simp [h] at hsB
    · simp only [if_neg h] at hsB
      obtain ⟨l, hl, hsel⟩ := List.mem_flatten.mp hsB
      obtain ⟨g, hgmem, rfl⟩ := List.mem_map.mp hl
      unfold processGroup at hsel
      match hshape : g.events with
      | [e] =>
        rw [hshape] at hsel
        simp only [List.mem_singleton] at hsel
        subst hsel
        cases hpid
      | [] =>
        rw [hshape] at hsel
        simp at hsel
      | e1 :: f1 :: rest =>
        rw [hshape] at hsel
        obtain ⟨x, hx, rfl⟩ := List.mem_map.mp hsel
        have hpid2 : ((calculateContainment (e1 :: f1 :: rest) opts.getPriority x.id).getD
            defaultInfo).parentId = some pid := hpid
        match hx2 : calculateContainment (e1 :: f1 :: rest) opts.getPriority x.id with
        | none =>
          rw [hx2] at hpid2
          cases hpid2
        | some info0 =>
          rw [hx2] at hpid2
          simp only [Option.getD_some] at hpid2
          obtain ⟨_, hpar⟩ :=
            calculateContainment_ok (e1 :: f1 :: rest) opts.getPriority x.id info0 hx2
          obtain ⟨p, hpS, q, hqS, hidp, hidq, hcontain, hprio⟩ := hpar pid hpid2
          have hpmem : p ∈ e1 :: f1 :: rest := by
            rw [sortByPriority] at hpS
            exact (List.mem_insertionSort (PriLE opts.getPriority)).mp hpS
          have hqmem : q ∈ e1 :: f1 :: rest := by
            rw [sortByPriority] at hqS
            exact (List.mem_insertionSort (PriLE opts.getPriority)).mp hqS
          have hgnd := group_ids_nodup events hnd g hgmem
          rw [hshape] at hgnd
          have hqx : q = x := by
            refine List.inj_on_of_nodup_map hgnd hqmem ?_ hidq
            exact hx
          subst hqx
          obtain ⟨sA, hsAmem, hsAev, _, _⟩ :=
            processGroup_mem_multi opts g e1 f1 rest hshape p (by rw [hshape]; exact hpmem)
          refine ⟨sA, mem_stackedEvents_of events opts g hgmem sA hsAmem, ?_, ?_, ?_⟩
          · rw [hsAev, hidp]
          · rw [hsAev]
            exact hcontain
          · rw [hsAev]
            exact hprio
  · exact root_entry_at events opts hnd

/-- Claim C5, witness at the nested five-event input. -/
theorem stack_parent_valid_witness :
    (nestEvents.map (fun e => e.id)).Nodup ∧
    ((∀ sB ∈ (calculateStacks nestEvents nestOpts).stackedEvents, ∀ pid,
      sB.parentId = some pid →
      ∃ sA ∈ (calculateStacks nestEvents nestOpts).stackedEvents, sA.event.id = pid ∧
        eventContains sA.event sB.event = true ∧
        nestOpts.getPriority sA.event ≤ nestOpts.getPriority sB.event) ∧
    (∀ g ∈ findOverlapGroups nestEvents,
     ∀ i, ∀ hi : i < (sortByPriority g.events nestOpts.getPriority).length,
      (∀ j, ∀ hj : j < i, eventContains
          ((sortByPriority g.events nestOpts.getPriority).get ⟨j, Nat.lt_trans hj hi⟩)
          ((sortByPriority g.events nestOpts.getPriority).get ⟨i, hi⟩) = false) →
      ∃ sB ∈ (calculateStacks nestEvents nestOpts).stackedEvents,
        sB.event = (sortByPriority g.events nestOpts.getPriority).get ⟨i, hi⟩ ∧
        sB.layer = 0 ∧ sB.parentId = none)) :=
  ⟨by decide, stack_parent_valid nestEvents nestOpts (by decide)⟩

/-- Priority-ascending order with ties broken by earlier start. -/
def LexPS (getPriority : CalendarEvent → Int) : CalendarEvent → CalendarEvent → Prop :=
  fun a b => getPriority a < getPriority b ∨
    (getPriority a = getPriority b ∧ a.start ≤ b.start)

/-- Inserting an event that starts no later than any list member into
a lex-ordered list keeps the list lex-ordered (stability of the stable
sort under priority ties). -/
theorem orderedInsert_lex (getPriority : CalendarEvent → Int) (a : CalendarEvent) :
    ∀ (s : List CalendarEvent), s.Pairwise (LexPS getPriority) →
      (∀ b ∈ s, a.start ≤ b.start) →
      (List.orderedInsert (PriLE getPriority) a s).Pairwise (LexPS getPriority) := by
  intro s
  induction s with
  | nil => intro _ _; simp
  | cons b t ih =>
    intro hs hstart
    by_cases hab : PriLE getPriority a b
    · rw [List.orderedInsert, if_pos hab]
      refine List.Pairwise.cons ?_ hs
      intro c hc
      rcases List.mem_cons.mp hc with rfl | hct
      · rcases lt_or_eq_of_le hab with h | h
        · exact Or.inl h
        · exact Or.inr ⟨h, hstart c (List.mem_cons_self c t)⟩
      · have hbc : getPriority b ≤ getPriority c := by
          have := (List.pairwise_cons.mp hs).1 c hct
          rcases this with h | ⟨h, _⟩
          · exact le_of_lt h
          · exact le_of_eq h
        have hac : getPriority a ≤ getPriority c := le_trans hab hbc
        rcases lt_or_eq_of_le hac with h | h
        · exact Or.inl h
        · exact Or.inr ⟨h, hstart c (List.mem_cons_of_mem b hct)⟩
    · rw [List.orderedInsert, if_neg hab]
      have hba : getPriority b < getPriority a := by
        have : ¬ getPriority a ≤ getPriority b := hab
        omega
      refine List.Pairwise.cons ?_ ?_
      · intro c hc
        rcases (List.mem_orderedInsert (PriLE getPriority)).mp hc with rfl | hct
        · exact Or.inl hba
        · exact (List.pairwise_cons.mp hs).1 c hct
      · exact ih (List.pairwise_cons.mp hs).2
          (fun c hct => hstart c (List.mem_cons_of_mem b hct))

/-- Stable priority sort of a start-sorted list is ordered by priority
with ties broken by earlier start time. -/
theorem insertionSort_lex (getPriority : CalendarEvent → Int) :
    ∀ (l : List CalendarEvent), l.Sorted StartLE →
      (List.insertionSort (PriLE getPriority) l).Pairwise (LexPS getPriority) := by
  intro l
  induction l with
  | nil => intro _; simp
  | cons a t ih =>
    intro hsorted
    rw [List.insertionSort]
    refine orderedInsert_lex getPriority a _ (ih hsorted.of_cons) ?_
    intro b hb
    have hbt : b ∈ t := (List.mem_insertionSort (PriLE getPriority)).mp hb
    exact List.rel_of_sorted_cons hsorted b hbt

/-- Groups of findOverlapGroups are sorted by start time. -/
theorem findOverlapGroups_sorted (events : List CalendarEvent) :
    ∀ g ∈ findOverlapGroups events, g.events.Sorted StartLE := by
  have hsorted : (sortStart events).Sorted StartLE := List.sorted_insertionSort _ _
  match hs : sortStart events with
  | [] =>
    have : findOverlapGroups events = [] := by rw [findOverlapGroups, hs]
    rw [this]
    intro g hg
    cases hg
  | e0 :: rest =>
    rw [hs] at hsorted
    have : findOverlapGroups events = sweepGroups rest [e0] e0.stop := by
      rw [findOverlapGroups, hs]
    rw [this]
    refine sweepGroups_sortedEvents rest [e0] e0.stop (List.sorted_singleton e0) ?_
      hsorted.of_cons
    intro x hx y hy
    exact (List.mem_singleton.mp hx) ▸ List.rel_of_sorted_cons hsorted y hy

/-- Claim C8: within each cluster, the Priority Stack Engine processes
events in the stable priority order: a permutation of the cluster
sorted ascending by priority with ties broken by earlier start time;
the first event of that order becomes a root at layer 0 (ids
unique). -/
theorem stack_order_priority (events : List CalendarEvent) (opts : StackOptions)
    (hnd : (events.map (fun e => e.id)).Nodup) :
    ∀ g ∈ findOverlapGroups events,
      List.Perm (sortByPriority g.events opts.getPriority) g.events ∧
      (sortByPriority g.events opts.getPriority).Pairwise (LexPS opts.getPriority) ∧
      ∀ hne : 0 < (sortByPriority g.events opts.getPriority).length,
        ∃ sB ∈ (calculateStacks events opts).stackedEvents,
          sB.event = (sortByPriority g.events opts.getPriority).get ⟨0, hne⟩ ∧
          sB.layer = 0 ∧ sB.parentId = none := by
  intro g hg
  refine ⟨?_, ?_, ?_⟩
  · rw [sortByPriority]
    exact List.perm_insertionSort _ _
  · rw [sortByPriority]
    exact insertionSort_lex opts.getPriority g.events (findOverlapGroups_sorted events g hg)
  · intro hne
    exact root_entry_at events opts hnd g hg 0 hne
      (fun j hj => absurd hj (Nat.not_lt_zero j))

/-- Claim C8, witness at the nested five-event input. -/
theorem stack_order_priority_witness :
    (nestEvents.map (fun e => e.id)).Nodup ∧
    (∀ g ∈ findOverlapGroups nestEvents,
      List.Perm (sortByPriority g.events nestOpts.getPriority) g.events ∧
      (sortByPriority g.events nestOpts.getPriority).Pairwise (LexPS nestOpts.getPriority) ∧
      ∀ hne : 0 < (sortByPriority g.events nestOpts.getPriority).length,
        ∃ sB ∈ (calculateStacks nestEvents nestOpts).stackedEvents,
          sB.event = (sortByPriority g.events nestOpts.getPriority).get ⟨0, hne⟩ ∧
          sB.layer = 0 ∧ sB.parentId = none) :=
  ⟨by decide, stack_order_priority nestEvents nestOpts (by decide)⟩

/-- A chain between two events is either trivial or passes through a
genuinely overlapping pair of distinct members. -/
theorem chain_distinct_pair {l : List CalendarEvent} {x y : CalendarEvent}
    (h : OverlapChain l x y) :
    x = y ∨ ∃ u ∈ l, ∃ v ∈ l, u ≠ v ∧ eventsOverlap u v = true := by
  induction h with
  | refl => exact Or.inl rfl
  | tail hch hstep ih =>
    rename_i b c
    obtain ⟨hb, hc, hov⟩ := hstep
    rcases ih with rfl | hpair
    · by_cases hbc : x = c
      · exact Or.inl hbc
      · exact Or.inr ⟨x, hb, c, hc, hbc, hov⟩
    · exact Or.inr hpair

/-- Overlap-free sorted input occupies only column 0 in the greedy
first-fit pass. -/
theorem assignLoop_all_zero :
    ∀ (l : List CalendarEvent) (m : SMap Nat) (ends : List Int),
      l.Sorted StartLE →
      (∀ e ∈ l, e.start < e.stop) →
      l.Pairwise (fun a b => eventsOverlap a b = false) →
      (ends = [] ∨ ∃ t, ends = [t] ∧ ∀ e ∈ l, t ≤ e.start) →
      ∀ k c, (assignLoop l m ends).1 k = some c → m k = some c ∨ c = 0 := by
  intro l
  induction l with
  | nil =>
    intro m ends _ _ _ _ k c h
    exact Or.inl h
  | cons e rest ih =>
    intro m ends hsorted hse hpair hends k c h
    have hnext : ∀ f ∈ rest, e.stop ≤ f.start := by
      intro f hf
      have hov : eventsOverlap e f = false := (List.pairwise_cons.mp hpair).1 f hf
      have hsf : e.start ≤ f.start := List.rel_of_sorted_cons hsorted f hf
      have hfs : f.start < f.stop := hse f (List.mem_cons_of_mem e hf)
      simp only [eventsOverlap, Bool.and_eq_false_iff, decide_eq_false_iff_not, not_lt] at hov
      rcases hov with h1 | h1
      · omega
      · exact h1
    have hintail : ∀ k c, (assignLoop rest (smapSet m e.id 0) [e.stop]).1 k = some c →
        m k = some c ∨ c = 0 := by
      intro k2 c2 h2
      rcases ih (smapSet m e.id 0) [e.stop] hsorted.of_cons
        (fun f hf => hse f (List.mem_cons_of_mem e hf))
        (List.pairwise_cons.mp hpair).2
        (Or.inr ⟨e.stop, rfl, hnext⟩) k2 c2 h2 with h3 | h3
      · rw [smapSet] at h3
        by_cases hk : k2 = e.id
        · rw [if_pos hk] at h3
          injection h3 with h3
          exact Or.inr h3.symm
        · rw [if_neg hk] at h3
          exact Or.inl h3
      · exact Or.inr h3
    rcases hends with rfl | ⟨t, rfl, ht⟩
    · rw [assignLoop, List.findIdx?_nil] at h
      exact hintail k c h
    · have hfi : List.findIdx? (fun x => decide (x ≤ e.start)) [t] = some 0 := by
        rw [List.findIdx?_cons, if_pos (by simpa using ht e (List.mem_cons_self e rest))]
      rw [assignLoop, hfi] at h
      exact hintail k c h

/-- The hasOverlaps flag is the any-fold over the positioned
events. -/
theorem hasOverlaps_eq_any (events : List CalendarEvent) (sh eh : Int) :
    (useEventLayout events sh eh).hasOverlaps =
      (useEventLayout events sh eh).positionedEvents.any
        (fun pe => decide (1 < pe.totalColumns)) := by
  unfold useEventLayout
  by_cases h : events.filter (fun x => !x.allDay) = []
  · simp [h]
  · rw [if_neg h]

/-- With no overlapping pair among the timed events, every positioned
event reports totalColumns 1. -/
theorem noPair_totalColumns_one (events : List CalendarEvent) (sh eh : Int)
    (hse : ∀ e ∈ events.filter (fun x => !x.allDay), e.start < e.stop)
    (hnd : ((events.filter (fun x => !x.allDay)).map (fun e => e.id)).Nodup)
    (hpair : (events.filter (fun x => !x.allDay)).Pairwise
      (fun a b => eventsOverlap a b = false)) :
    ∀ pe ∈ (useEventLayout events sh eh).positionedEvents, pe.totalColumns = 1 := by
  intro pe hpe
  obtain ⟨e, he, rfl⟩ := (mem_positionedEvents events sh eh pe).mp hpe
  have hne : events.filter (fun x => !x.allDay) ≠ [] := by
    intro hc
    rw [hc] at he
    cases he
  have hperm : List.Perm (sortLayout (events.filter (fun x => !x.allDay)))
      (events.filter (fun x => !x.allDay)) := List.perm_insertionSort _ _
  have hsym : ∀ {a b : CalendarEvent},
      eventsOverlap a b = false → eventsOverlap b a = false := by
    intro a b h
    rw [eventsOverlap_comm] at h
    exact h
  have hsortedL : (sortLayout (events.filter (fun x => !x.allDay))).Sorted LayoutLE :=
    List.sorted_insertionSort _ _
  have hsortedS : (sortLayout (events.filter (fun x => !x.allDay))).Sorted StartLE := by
    refine hsortedL.imp ?_
    intro a b hab
    rcases hab with h | ⟨h, _⟩
    · exact le_of_lt h
    · exact le_of_eq h
  have hpairs : (sortLayout (events.filter (fun x => !x.allDay))).Pairwise
      (fun a b => eventsOverlap a b = false) :=
    (hperm.pairwise_iff (fun h => hsym h)).mpr hpair
  have hzero := assignLoop_all_zero (sortLayout (events.filter (fun x => !x.allDay)))
    (fun _ => none) [] hsortedS
    (fun f hf => hse f (hperm.mem_iff.mp hf)) hpairs (Or.inl rfl)
  have hes : e ∈ sortLayout (events.filter (fun x => !x.allDay)) := hperm.mem_iff.mpr he
  have hnds : ((sortLayout (events.filter (fun x => !x.allDay))).map (fun e => e.id)).Nodup :=
    ((hperm.map (fun e => e.id)).nodup_iff).mpr hnd
  have hac : assignColumns (events.filter (fun x => !x.allDay)) =
      totalLoop (sortLayout (events.filter (fun x => !x.allDay)))
        (assignLoop (sortLayout (events.filter (fun x => !x.allDay))) (fun _ => none) []).1 := by
    rw [assignColumns, if_neg hne]
  have hlook := totalLoop_lookup (sortLayout (events.filter (fun x => !x.allDay)))
    (assignLoop (sortLayout (events.filter (fun x => !x.allDay))) (fun _ => none) []).1
    hnds e hes
  have htc : (positionEvent (assignColumns (events.filter (fun x => !x.allDay))) sh eh
      e).totalColumns =
      tcOfMax (((sortLayout (events.filter (fun x => !x.allDay))).filter
          (fun other => eventsOverlap e other)).map
        (fun f => ((assignLoop (sortLayout (events.filter (fun x => !x.allDay)))
          (fun _ => none) []).1 f.id).getD 0)).maximum := by
    rw [positionEvent_totalColumns, hac, hlook]
    rfl
  have hovee : eventsOverlap e e = true := by
    have := hse e he
    simp only [eventsOverlap, Bool.and_eq_true, decide_eq_true_eq]
    omega
  have hnonempty : ((sortLayout (events.filter (fun x => !x.allDay))).filter
      (fun other => eventsOverlap e other)).map
        (fun f => ((assignLoop (sortLayout (events.filter (fun x => !x.allDay)))
          (fun _ => none) []).1 f.id).getD 0) ≠ [] := by
    apply List.ne_nil_of_mem
    exact List.mem_map_of_mem _ (List.mem_filter.mpr ⟨hes, hovee⟩)
  have hallzero : ∀ x ∈ ((sortLayout (events.filter (fun x => !x.allDay))).filter
      (fun other => eventsOverlap e other)).map
        (fun f => ((assignLoop (sortLayout (events.filter (fun x => !x.allDay)))
          (fun _ => none) []).1 f.id).getD 0), x = 0 := by
    intro x hx
    obtain ⟨f, _, rfl⟩ := List.mem_map.mp hx
    match hv : (assignLoop (sortLayout (events.filter (fun x => !x.allDay)))
        (fun _ => none) []).1 f.id with
    | none => rfl
    | some c =>
      rcases hzero f.id c hv with h2 | h2
      · cases h2
      · simp [hv, h2]
  have hfold : (((sortLayout (events.filter (fun x => !x.allDay))).filter
      (fun other => eventsOverlap e other)).map
        (fun f => ((assignLoop (sortLayout (events.filter (fun x => !x.allDay)))
          (fun _ => none) []).1 f.id).getD 0)).foldl max 0 = 0 := by
    rcases (foldl_max_spec _ 0).2.2 with h | h
    · exact h
    · exact hallzero _ h
  rw [htc, tcOfMax_eq_foldl _ hnonempty, hfold]

/-- With some overlapping pair among the timed events, some positioned
event reports totalColumns greater than 1. -/
theorem somePair_totalColumns_gt (events : List CalendarEvent) (sh eh : Int)
    (hse : ∀ e ∈ events.filter (fun x => !x.allDay), e.start < e.stop)
    (hnd : ((events.filter (fun x => !x.allDay)).map (fun e => e.id)).Nodup)
    (hpair : ¬ (events.filter (fun x => !x.allDay)).Pairwise
      (fun a b => eventsOverlap a b = false)) :
    ∃ pe ∈ (useEventLayout events sh eh).positionedEvents, 1 < pe.totalColumns := by
  have hperm : List.Perm (sortLayout (events.filter (fun x => !x.allDay)))
      (events.filter (fun x => !x.allDay)) := List.perm_insertionSort _ _
  have hsym : ∀ {a b : CalendarEvent},
      eventsOverlap a b = false → eventsOverlap b a = false := by
    intro a b h
    rw [eventsOverlap_comm] at h
    exact h
  have hnp : ¬ (sortLayout (events.filter (fun x => !x.allDay))).Pairwise
      (fun a b => eventsOverlap a b = false) := by
    intro h
    exact hpair ((hperm.pairwise_iff (fun h2 => hsym h2)).mp h)
  rw [List.pairwise_iff_getElem] at hnp
  push_neg at hnp
  obtain ⟨i, j, hi, hj, hij, hovf⟩ := hnp
  have hov : eventsOverlap (sortLayout (events.filter (fun x => !x.allDay)))[i]
      (sortLayout (events.filter (fun x => !x.allDay)))[j] = true := by
    simpa using hovf
  have hnds : ((sortLayout (events.filter (fun x => !x.allDay))).map (fun e => e.id)).Nodup :=
    ((hperm.map (fun e => e.id)).nodup_iff).mpr hnd
  have hid : ((sortLayout (events.filter (fun x => !x.allDay)))[i]).id ≠
      ((sortLayout (events.filter (fun x => !x.allDay)))[j]).id := by
    have hlen : ∀ n, n < (sortLayout (events.filter (fun x => !x.allDay))).length →
        n < ((sortLayout (events.filter (fun x => !x.allDay))).map
          (fun e => e.id)).length := by
      intro n hn
      simpa using hn
    have := List.pairwise_iff_getElem.mp hnds i j (hlen i hi) (hlen j hj) hij
    simpa using this
  obtain ⟨inv1, inv3⟩ := assignColumns_firstPass (events.filter (fun x => !x.allDay)) hse hnd
  have hmemf : (sortLayout (events.filter (fun x => !x.allDay)))[i] ∈
      sortLayout (events.filter (fun x => !x.allDay)) := List.getElem_mem hi
  have hmeme : (sortLayout (events.filter (fun x => !x.allDay)))[j] ∈
      sortLayout (events.filter (fun x => !x.allDay)) := List.getElem_mem hj
  obtain ⟨cf, hcf, _, _⟩ := inv1 _ hmemf
  obtain ⟨ce, hce, _, _⟩ := inv1 _ hmeme
  have hcfce : cf ≠ ce := by
    intro hcc
    have h2 := inv3 _ hmemf _ hmeme hid (by rw [hcf, hce, hcc])
    simp [h2] at hov
  have hetv : (sortLayout (events.filter (fun x => !x.allDay)))[j] ∈
      events.filter (fun x => !x.allDay) := hperm.mem_iff.mp hmeme
  have hne : events.filter (fun x => !x.allDay) ≠ [] := by
    intro hc
    have hj2 := hj
    rw [hc] at hj2
    have hz : (sortLayout ([] : List CalendarEvent)) = [] := rfl
    rw [hz] at hj2
    simp at hj2
  have hac : assignColumns (events.filter (fun x => !x.allDay)) =
      totalLoop (sortLayout (events.filter (fun x => !x.allDay)))
        (assignLoop (sortLayout (events.filter (fun x => !x.allDay))) (fun _ => none) []).1 := by
    rw [assignColumns, if_neg hne]
  have hlook := totalLoop_lookup (sortLayout (events.filter (fun x => !x.allDay)))
    (assignLoop (sortLayout (events.filter (fun x => !x.allDay))) (fun _ => none) []).1
    hnds _ hmeme
  refine ⟨positionEvent (assignColumns (events.filter (fun x => !x.allDay))) sh eh
    (sortLayout (events.filter (fun x => !x.allDay)))[j], ?_, ?_⟩
  · rw [positionedEvents_eq]
    exact List.mem_map_of_mem _ hetv
  · have htc : (positionEvent (assignColumns (events.filter (fun x => !x.allDay))) sh eh
        (sortLayout (events.filter (fun x => !x.allDay)))[j]).totalColumns =
        tcOfMax (((sortLayout (events.filter (fun x => !x.allDay))).filter
            (fun other => eventsOverlap
              (sortLayout (events.filter (fun x => !x.allDay)))[j] other)).map
          (fun f => ((assignLoop (sortLayout (events.filter (fun x => !x.allDay)))
            (fun _ => none) []).1 f.id).getD 0)).maximum := by
      rw [positionEvent_totalColumns, hac, hlook]
      rfl
    have hovee : eventsOverlap (sortLayout (events.filter (fun x => !x.allDay)))[j]
        (sortLayout (events.filter (fun x => !x.allDay)))[j] = true := by
      have := hse _ hetv
      simp only [eventsOverlap, Bool.and_eq_true, decide_eq_true_eq]
      omega
    have hovef : eventsOverlap (sortLayout (events.filter (fun x => !x.allDay)))[j]
        (sortLayout (events.filter (fun x => !x.allDay)))[i] = true := by
      rw [eventsOverlap_comm]
      exact hov
    have hmemcf : cf ∈ ((sortLayout (events.filter (fun x => !x.allDay))).filter
        (fun other => eventsOverlap
          (sortLayout (events.filter (fun x => !x.allDay)))[j] other)).map
        (fun f => ((assignLoop (sortLayout (events.filter (fun x => !x.allDay)))
          (fun _ => none) []).1 f.id).getD 0) := by
      have h1 : (sortLayout (events.filter (fun x => !x.allDay)))[i] ∈
          (sortLayout (events.filter (fun x => !x.allDay))).filter
            (fun other => eventsOverlap
              (sortLayout (events.filter (fun x => !x.allDay)))[j] other) :=
        List.mem_filter.mpr ⟨hmemf, hovef⟩
      have h2 : (((assignLoop (sortLayout (events.filter (fun x => !x.allDay)))
          (fun _ => none) []).1
          ((sortLayout (events.filter (fun x => !x.allDay)))[i]).id).getD 0) ∈
          ((sortLayout (events.filter (fun x => !x.allDay))).filter
            (fun other => eventsOverlap
              (sortLayout (events.filter (fun x => !x.allDay)))[j] other)).map
          (fun f => ((assignLoop (sortLayout (events.filter (fun x => !x.allDay)))
            (fun _ => none) []).1 f.id).getD 0) :=
        List.mem_map_of_mem _ h1
      rw [hcf] at h2
      simpa using h2
    have hmemce : ce ∈ ((sortLayout (events.filter (fun x => !x.allDay))).filter
        (fun other => eventsOverlap
          (sortLayout (events.filter (fun x => !x.allDay)))[j] other)).map
        (fun f => ((assignLoop (sortLayout (events.filter (fun x => !x.allDay)))
          (fun _ => none) []).1 f.id).getD 0) := by
      have h1 : (sortLayout (events.filter (fun x => !x.allDay)))[j] ∈
          (sortLayout (events.filter (fun x => !x.allDay))).filter
            (fun other => eventsOverlap
              (sortLayout (events.filter (fun x => !x.allDay)))[j] other) :=
        List.mem_filter.mpr ⟨hmeme, hovee⟩
      have h2 : (((assignLoop (sortLayout (events.filter (fun x => !x.allDay)))
          (fun _ => none) []).1
          ((sortLayout (events.filter (fun x => !x.allDay)))[j]).id).getD 0) ∈
          ((sortLayout (events.filter (fun x => !x.allDay))).filter
            (fun other => eventsOverlap
              (sortLayout (events.filter (fun x => !x.allDay)))[j] other)).map
          (fun f => ((assignLoop (sortLayout (events.filter (fun x => !x.allDay)))
            (fun _ => none) []).1 f.id).getD 0) :=
        List.mem_map_of_mem _ h1
      rw [hce] at h2
      simpa using h2
    have hnonempty : ((sortLayout (events.filter (fun x => !x.allDay))).filter
        (fun other => eventsOverlap
          (sortLayout (events.filter (fun x => !x.allDay)))[j] other)).map
        (fun f => ((assignLoop (sortLayout (events.filter (fun x => !x.allDay)))
          (fun _ => none) []).1 f.id).getD 0) ≠ [] := List.ne_nil_of_mem hmemce
    rw [htc, tcOfMax_eq_foldl _ hnonempty]
    have h1 := (foldl_max_spec (((sortLayout (events.filter (fun x => !x.allDay))).filter
        (fun other => eventsOverlap
          (sortLayout (events.filter (fun x => !x.allDay)))[j] other)).map
        (fun f => ((assignLoop (sortLayout (events.filter (fun x => !x.allDay)))
          (fun _ => none) []).1 f.id).getD 0)) 0).1
    have hgecf := h1 cf hmemcf
    have hgece := h1 ce hmemce
    omega

/-- Claim C7: for non-all-day events with positive duration and unique
ids, hasOverlaps is true iff some overlap cluster has more than one
event, equivalently iff some positioned event has totalColumns > 1;
the empty input yields empty output and hasOverlaps = false. -/
theorem hasOverlaps_iff (events : List CalendarEvent) (startHour endHour : Int)
    (hall : ∀ e ∈ events, e.allDay = false)
    (hse : ∀ e ∈ events, e.start < e.stop)
    (hnd : (events.map (fun e => e.id)).Nodup) :
    ((useEventLayout events startHour endHour).hasOverlaps = true ↔
      ∃ g ∈ findOverlapGroups events, 1 < g.events.length) ∧
    ((useEventLayout events startHour endHour).hasOverlaps = true ↔
      ∃ pe ∈ (useEventLayout events startHour endHour).positionedEvents,
        1 < pe.totalColumns) ∧
    (useEventLayout [] startHour endHour).positionedEvents = [] ∧
    (useEventLayout [] startHour endHour).hasOverlaps = false := by
  have htv : events.filter (fun x => !x.allDay) = events := by
    apply List.filter_eq_self.mpr
    intro e he
    simp [hall e he]
  have hsym : ∀ {a b : CalendarEvent},
      eventsOverlap a b = false → eventsOverlap b a = false := by
    intro a b h
    rw [eventsOverlap_comm] at h
    exact h
  have hsymm : Symmetric (fun a b => eventsOverlap a b = false) := fun _ _ h => hsym h
  have iffA : (useEventLayout events startHour endHour).hasOverlaps = true ↔
      ∃ pe ∈ (useEventLayout events startHour endHour).positionedEvents,
        1 < pe.totalColumns := by
    rw [hasOverlaps_eq_any, List.any_eq_true]
    constructor
    · intro ⟨pe, hpe, hd⟩
      exact ⟨pe, hpe, by simpa using hd⟩
    · intro ⟨pe, hpe, hd⟩
      exact ⟨pe, hpe, by simpa using hd⟩
  have hsetv : ∀ e ∈ events.filter (fun x => !x.allDay), e.start < e.stop := by
    rw [htv]
    exact hse
  have hndtv : ((events.filter (fun x => !x.allDay)).map (fun e => e.id)).Nodup := by
    rw [htv]
    exact hnd
  have iffB : (∃ pe ∈ (useEventLayout events startHour endHour).positionedEvents,
      1 < pe.totalColumns) ↔
      ¬ events.Pairwise (fun a b => eventsOverlap a b = false) := by
    constructor
    · intro ⟨pe, hpe, htc⟩ hp
      have := noPair_totalColumns_one events startHour endHour hsetv hndtv
        (by rw [htv]; exact hp) pe hpe
      omega
    · intro hnp
      exact somePair_totalColumns_gt events startHour endHour hsetv hndtv
        (by rw [htv]; exact hnp)
  have iffC : ¬ events.Pairwise (fun a b => eventsOverlap a b = false) ↔
      ∃ g ∈ findOverlapGroups events, 1 < g.events.length := by
    obtain ⟨hpermF, hapart, hchain⟩ := findOverlapGroups_props events hse
    constructor
    · intro hnp
      by_contra hno
      push_neg at hno
      apply hnp
      have hflat : (((findOverlapGroups events).map StackGroup.events).flatten).Pairwise
          (fun a b => eventsOverlap a b = false) := by
        rw [List.pairwise_flatten]
        constructor
        · intro l hl
          obtain ⟨g, hg, rfl⟩ := List.mem_map.mp hl
          have hlen := hno g hg
          match hsh : g.events with
          | [] => exact List.Pairwise.nil
          | [x] => simp
          | x :: y :: t =>
            rw [hsh] at hlen
            simp at hlen
        · exact List.pairwise_map.mpr hapart
      exact (hpermF.pairwise_iff (fun h => hsym h)).mp hflat
    · intro ⟨g, hg, hlen⟩ hp
      have hflat : (((findOverlapGroups events).map StackGroup.events).flatten).Pairwise
          (fun a b => eventsOverlap a b = false) := (hpermF.pairwise_iff (fun h => hsym h)).mpr hp
      match hsh : g.events with
      | [] =>
        rw [hsh] at hlen
        simp at hlen
      | [x] =>
        rw [hsh] at hlen
        simp at hlen
      | x :: y :: t =>
        have hx : x ∈ g.events := by
          rw [hsh]
          exact List.mem_cons_self _ _
        have hy : y ∈ g.events := by
          rw [hsh]
          exact List.mem_cons_of_mem _ (List.mem_cons_self _ _)
        have hchainxy := hchain g hg x hx y hy
        rcases chain_distinct_pair hchainxy with heq | ⟨u, hu, v, hv, huv, hov⟩
        · have hsub1 : [x, x].Sublist g.events := by
            rw [hsh, ← heq]
            exact List.Sublist.cons₂ x (List.Sublist.cons₂ x (List.nil_sublist t))
          have hsub2 : g.events.Sublist
              (((findOverlapGroups events).map StackGroup.events).flatten) :=
            List.sublist_flatten_of_mem (List.mem_map_of_mem StackGroup.events hg)
          have hxx := (List.pairwise_cons.mp
            (List.Pairwise.sublist (hsub1.trans hsub2) hflat)).1 x (List.mem_singleton_self x)
          have hovxx : eventsOverlap x x = true := by
            have := hse x (group_mem_sub events g hg x hx)
            simp only [eventsOverlap, Bool.and_eq_true, decide_eq_true_eq]
            omega
          rw [hxx] at hovxx
          cases hovxx
        · have hu2 : u ∈ events := group_mem_sub events g hg u hu
          have hv2 : v ∈ events := group_mem_sub events g hg v hv
          have hnoov := List.Pairwise.forall hsymm hp hu2 hv2 huv
          rw [hnoov] at hov
          cases hov
  refine ⟨iffA.trans (iffB.trans iffC), iffA, ?_, ?_⟩
  · simp [useEventLayout]
  · simp [useEventLayout]

/-- Claim C7, witness at a concrete input. -/
theorem hasOverlaps_iff_witness :
    (∀ e ∈ witEvents, e.allDay = false) ∧
    (∀ e ∈ witEvents, e.start < e.stop) ∧
    (witEvents.map (fun e => e.id)).Nodup ∧
    (((useEventLayout witEvents 0 24).hasOverlaps = true ↔
      ∃ g ∈ findOverlapGroups witEvents, 1 < g.events.length) ∧
    ((useEventLayout witEvents 0 24).hasOverlaps = true ↔
      ∃ pe ∈ (useEventLayout witEvents 0 24).positionedEvents, 1 < pe.totalColumns) ∧
    (useEventLayout [] 0 24).positionedEvents = [] ∧
    (useEventLayout [] 0 24).hasOverlaps = false) :=
  ⟨by decide, by decide, by decide,
    hasOverlaps_iff witEvents 0 24 (by decide) (by decide) (by decide)⟩

/-- Every event the scan adds overlaps the current event. -/
theorem scanAdd_adds_overlap (c : CalendarEvent) :
    ∀ (l : List CalendarEvent) (a : List String),
      ∀ x ∈ (scanAdd c l a).1, eventsOverlap c x = true := by
  intro l
  induction l with
  | nil => intro a x hx; simp [scanAdd] at hx
  | cons other rest ih =>
    intro a x hx
    by_cases h : other.id ∉ a ∧ eventsOverlap c other = true
    · rw [scanAdd, if_pos h] at hx
      rcases List.mem_cons.mp hx with rfl | hx2
      · exact h.2
      · exact ih (a ++ [other.id]) x hx2
    · rw [scanAdd, if_neg h] at hx
      exact ih a x hx

/-- The scanned assigned set only grows. -/
theorem scanAdd_assigned_sub (c : CalendarEvent) (l : List CalendarEvent) (a : List String) :
    ∀ s ∈ a, s ∈ (scanAdd c l a).2 := by
  intro s hs
  rw [(scanAdd_spec c l a).1]
  exact List.mem_append_left _ hs

/-- After the scan, every event of the list overlapping the current
event is assigned. -/
theorem scanAdd_complete (c : CalendarEvent) :
    ∀ (l : List CalendarEvent) (a : List String),
      ∀ y ∈ l, eventsOverlap c y = true → y.id ∈ (scanAdd c l a).2 := by
  intro l
  induction l with
  | nil => intro a y hy; cases hy
  | cons other rest ih =>
    intro a y hy hov
    by_cases h : other.id ∉ a ∧ eventsOverlap c other = true
    · rw [scanAdd, if_pos h]
      rcases List.mem_cons.mp hy with rfl | hy2
      · exact scanAdd_assigned_sub c rest (a ++ [y.id]) y.id
          (List.mem_append_right _ (List.mem_singleton_self _))
      · exact ih (a ++ [other.id]) y hy2 hov
    · rw [scanAdd, if_neg h]
      rcases List.mem_cons.mp hy with rfl | hy2
      · have : y.id ∈ a := by
          by_contra hc
          exact h ⟨hc, hov⟩
        exact scanAdd_assigned_sub c rest a y.id this
      · exact ih a y hy2 hov

/-- The BFS assigned set only grows. -/
theorem bfs_assigned_mono (sorted : List CalendarEvent) :
    ∀ (queue : List CalendarEvent) (a : List String),
      ∀ s ∈ a, s ∈ (bfsLoop sorted queue a).2 := by
  intro queue a
  induction queue, a using bfsLoop.induct sorted with
  | case1 a => intro s hs; simpa [bfsLoop] using hs
  | case2 a current queueRest r ih =>
    intro s hs
    rw [bfsLoop]
    exact ih s (scanAdd_assigned_sub current sorted a s hs)

/-- Queue members end up in the BFS group. -/
theorem bfs_queue_sub (sorted : List CalendarEvent) :
    ∀ (queue : List CalendarEvent) (a : List String),
      ∀ q ∈ queue, q ∈ (bfsLoop sorted queue a).1 := by
  intro queue a
  induction queue, a using bfsLoop.induct sorted with
  | case1 a => intro q hq; cases hq
  | case2 a current queueRest r ih =>
    intro q hq
    rw [bfsLoop]
    rcases List.mem_cons.mp hq with rfl | hq2
    · exact List.mem_cons_self _ _
    · exact List.mem_cons_of_mem _ (ih q (List.mem_append_left _ hq2))

/-- BFS group members come from the queue or the scanned list. -/
theorem bfs_sub (sorted : List CalendarEvent) :
    ∀ (queue : List CalendarEvent) (a : List String),
      ∀ x ∈ (bfsLoop sorted queue a).1, x ∈ queue ∨ x ∈ sorted := by
  intro queue a
  induction queue, a using bfsLoop.induct sorted with
  | case1 a =>
    intro x hx
    rw [bfsLoop] at hx
    cases hx
  | case2 a current queueRest r ih =>
    intro x hx
    rw [bfsLoop] at hx
    rcases List.mem_cons.mp hx with rfl | hx2
    · exact Or.inl (List.mem_cons_self _ _)
    · rcases ih x hx2 with h | h
      · rcases List.mem_append.mp h with h2 | h2
        · exact Or.inl (List.mem_cons_of_mem _ h2)
        · exact Or.inr ((scanAdd_spec current sorted a).2.2 x h2).1
      · exact Or.inr h

/-- BFS group members were in the queue or unassigned on entry. -/
theorem bfs_members_fresh (sorted : List CalendarEvent) :
    ∀ (queue : List CalendarEvent) (a : List String),
      ∀ x ∈ (bfsLoop sorted queue a).1, x ∈ queue ∨ x.id ∉ a := by
  intro queue a
  induction queue, a using bfsLoop.induct sorted with
  | case1 a =>
    intro x hx
    rw [bfsLoop] at hx
    cases hx
  | case2 a current queueRest r ih =>
    intro x hx
    rw [bfsLoop] at hx
    rcases List.mem_cons.mp hx with rfl | hx2
    · exact Or.inl (List.mem_cons_self _ _)
    · rcases ih x hx2 with h | h
      · rcases List.mem_append.mp h with h2 | h2
        · exact Or.inl (List.mem_cons_of_mem _ h2)
        · exact Or.inr ((scanAdd_spec current sorted a).2.2 x h2).2
      · refine Or.inr ?_
        intro hc
        exact h (scanAdd_assigned_sub current sorted a x.id hc)

/-- Assigned members of the scanned list lie in the group when ids are
unique: the BFS group accounts for every id its run assigns. -/
theorem bfs_covers (sorted : List CalendarEvent)
    (hnds : (sorted.map (fun e => e.id)).Nodup) :
    ∀ (queue : List CalendarEvent) (a : List String),
      ∀ y ∈ sorted, y.id ∈ (bfsLoop sorted queue a).2 →
        y.id ∈ a ∨ y ∈ (bfsLoop sorted queue a).1 := by
  intro queue a
  induction queue, a using bfsLoop.induct sorted with
  | case1 a =>
    intro y _ hyid
    rw [bfsLoop] at hyid
    exact Or.inl hyid
  | case2 a current queueRest r ih =>
    intro y hy hyid
    rw [bfsLoop] at hyid ⊢
    rcases ih y hy hyid with h | h
    · have hspec := scanAdd_spec current sorted a
      rw [hspec.1] at h
      rcases List.mem_append.mp h with h2 | h2
      · exact Or.inl h2
      · obtain ⟨z, hz, hzid⟩ := List.mem_map.mp h2
        have hzs : z ∈ sorted := (hspec.2.2 z hz).1
        have hzy : z = y := List.inj_on_of_nodup_map hnds hzs hy hzid
        subst hzy
        refine Or.inr (List.mem_cons_of_mem _ ?_)
        exact bfs_queue_sub sorted _ _ z (List.mem_append_right _ hz)
    · exact Or.inr (List.mem_cons_of_mem _ h)

/-- Nothing left unassigned by a BFS run overlaps a member of its
group. -/
theorem bfs_separation (sorted : List CalendarEvent) :
    ∀ (queue : List CalendarEvent) (a : List String),
      ∀ y ∈ sorted, y.id ∉ (bfsLoop sorted queue a).2 →
        ∀ x ∈ (bfsLoop sorted queue a).1, eventsOverlap x y = false := by
  intro queue a
  induction queue, a using bfsLoop.induct sorted with
  | case1 a =>
    intro y _ _ x hx
    rw [bfsLoop] at hx
    cases hx
  | case2 a current queueRest r ih =>
    intro y hy hyna x hx
    rw [bfsLoop] at hyna hx
    rcases List.mem_cons.mp hx with rfl | hx2
    · cases hb : eventsOverlap x y with
      | false => rfl
      | true =>
        exfalso
        apply hyna
        exact bfs_assigned_mono sorted _ _ y.id (scanAdd_complete x sorted a y hy hb)
    · exact ih y hy hyna x hx2

/-- Every member of a BFS group is chain-connected to the root. -/
theorem bfs_chain (sorted : List CalendarEvent) (root : CalendarEvent) :
    ∀ (queue : List CalendarEvent) (a : List String),
      (∀ q ∈ queue, q ∈ sorted) → (∀ q ∈ queue, OverlapChain sorted root q) →
      ∀ x ∈ (bfsLoop sorted queue a).1, OverlapChain sorted root x := by
  intro queue a
  induction queue, a using bfsLoop.induct sorted with
  | case1 a =>
    intro _ _ x hx
    rw [bfsLoop] at hx
    cases hx
  | case2 a current queueRest r ih =>
    intro hqs hqc x hx
    rw [bfsLoop] at hx
    rcases List.mem_cons.mp hx with rfl | hx2
    · exact hqc _ (List.mem_cons_self _ _)
    · refine ih ?_ ?_ x hx2
      · intro q hq
        rcases List.mem_append.mp hq with h2 | h2
        · exact hqs q (List.mem_cons_of_mem _ h2)
        · exact ((scanAdd_spec current sorted a).2.2 q h2).1
      · intro q hq
        rcases List.mem_append.mp hq with h2 | h2
        · exact hqc q (List.mem_cons_of_mem _ h2)
        · refine Relation.ReflTransGen.tail (hqc current (List.mem_cons_self _ _)) ?_
          exact ⟨hqs current (List.mem_cons_self _ _),
            ((scanAdd_spec current sorted a).2.2 q h2).1,
            scanAdd_adds_overlap current sorted a q h2⟩

/-- Members of BFS clustering groups come from the sorted list. -/
theorem goGroups_members_sub (sorted : List CalendarEvent) :
    ∀ (remaining : List CalendarEvent) (a : List String),
      (∀ x ∈ remaining, x ∈ sorted) →
      ∀ g ∈ goGroups sorted remaining a, ∀ y ∈ g, y ∈ sorted := by
  intro remaining
  induction remaining with
  | nil => intro a _ g hg; cases hg
  | cons e rest ih =>
    intro a hsub g hg y hy
    by_cases he : e.id ∈ a
    · rw [goGroups, if_pos he] at hg
      exact ih a (fun x hx => hsub x (List.mem_cons_of_mem e hx)) g hg y hy
    · rw [goGroups, if_neg he] at hg
      rcases List.mem_cons.mp hg with rfl | hg2
      · rcases bfs_sub sorted [e] (a ++ [e.id]) y hy with h | h
        · exact (List.mem_singleton.mp h) ▸ hsub e (List.mem_cons_self e rest)
        · exact h
      · exact ih _ (fun x hx => hsub x (List.mem_cons_of_mem e hx)) g hg2 y hy

/-- Members of BFS clustering groups were unassigned on entry. -/
theorem goGroups_members_unassigned (sorted : List CalendarEvent) :
    ∀ (remaining : List CalendarEvent) (a : List String),
      ∀ g ∈ goGroups sorted remaining a, ∀ y ∈ g, y.id ∉ a := by
  intro remaining
  induction remaining with
  | nil => intro a g hg; cases hg
  | cons e rest ih =>
    intro a g hg y hy
    by_cases he : e.id ∈ a
    · rw [goGroups, if_pos he] at hg
      exact ih a g hg y hy
    · rw [goGroups, if_neg he] at hg
      rcases List.mem_cons.mp hg with rfl | hg2
      · rcases bfs_members_fresh sorted [e] (a ++ [e.id]) y hy with h | h
        · exact (List.mem_singleton.mp h) ▸ he
        · intro hc
          exact h (List.mem_append_left _ hc)
      · intro hc
        have hyaf := ih _ g hg2 y hy
        apply hyaf
        exact bfs_assigned_mono sorted [e] (a ++ [e.id]) y.id (List.mem_append_left _ hc)

/-- Every event of the scanned suffix lands in a BFS clustering group
or was already assigned. -/
theorem goGroups_covers (sorted : List CalendarEvent)
    (hnds : (sorted.map (fun e => e.id)).Nodup) :
    ∀ (remaining : List CalendarEvent) (a : List String),
      (∀ x ∈ remaining, x ∈ sorted) →
      ∀ x ∈ remaining, x ∈ (goGroups sorted remaining a).flatten ∨ x.id ∈ a := by
  intro remaining
  induction remaining with
  | nil => intro a _ x hx; cases hx
  | cons e rest ih =>
    intro a hsub x hx
    by_cases he : e.id ∈ a
    · rw [goGroups, if_pos he]
      rcases List.mem_cons.mp hx with rfl | hx2
      · exact Or.inr he
      · exact ih a (fun z hz => hsub z (List.mem_cons_of_mem e hz)) x hx2
    · rw [goGroups, if_neg he]
      simp only [List.flatten_cons]
      rcases List.mem_cons.mp hx with rfl | hx2
      · refine Or.inl (List.mem_append_left _ ?_)
        exact bfs_queue_sub sorted [x] (a ++ [x.id]) x (List.mem_singleton_self x)
      · rcases ih _ (fun z hz => hsub z (List.mem_cons_of_mem e hz)) x hx2 with h | h
        · exact Or.inl (List.mem_append_right _ h)
        · rcases bfs_covers sorted hnds [e] (a ++ [e.id]) x
            (hsub x (List.mem_cons_of_mem e hx2)) h with h2 | h2
          · rcases List.mem_append.mp h2 with h3 | h3
            · exact Or.inr h3
            · have hxe : x = e := by
                refine List.inj_on_of_nodup_map hnds
                  (hsub x (List.mem_cons_of_mem e hx2))
                  (hsub e (List.mem_cons_self e rest)) ?_
                simpa using h3
              subst hxe
              refine Or.inl (List.mem_append_left _ ?_)
              exact bfs_queue_sub sorted [x] (a ++ [x.id]) x (List.mem_singleton_self x)
          · exact Or.inl (List.mem_append_left _ h2)

/-- BFS clustering groups are pairwise separated. -/
theorem goGroups_pairwise (sorted : List CalendarEvent) :
    ∀ (remaining : List CalendarEvent) (a : List String),
      (∀ x ∈ remaining, x ∈ sorted) →
      (goGroups sorted remaining a).Pairwise
        (fun p q => ∀ x ∈ p, ∀ y ∈ q, eventsOverlap x y = false) := by
  intro remaining
  induction remaining with
  | nil => intro a _; exact List.Pairwise.nil
  | cons e rest ih =>
    intro a hsub
    by_cases he : e.id ∈ a
    · rw [goGroups, if_pos he]
      exact ih a (fun z hz => hsub z (List.mem_cons_of_mem e hz))
    · rw [goGroups, if_neg he]
      refine List.Pairwise.cons ?_ (ih _ (fun z hz => hsub z (List.mem_cons_of_mem e hz)))
      intro g2 hg2 x hxg y hyg
      have hys : y ∈ sorted := goGroups_members_sub sorted rest _
        (fun z hz => hsub z (List.mem_cons_of_mem e hz)) g2 hg2 y hyg
      have hyna : y.id ∉ (bfsLoop sorted [e] (a ++ [e.id])).2 :=
        goGroups_members_unassigned sorted rest _ g2 hg2 y hyg
      exact bfs_separation sorted [e] (a ++ [e.id]) y hys hyna x hxg

/-- BFS clustering groups are internally chain-connected. -/
theorem goGroups_chain (sorted : List CalendarEvent) :
    ∀ (remaining : List CalendarEvent) (a : List String),
      (∀ x ∈ remaining, x ∈ sorted) →
      ∀ g ∈ goGroups sorted remaining a, ∀ x ∈ g, ∀ y ∈ g, OverlapChain sorted x y := by
  intro remaining
  induction remaining with
  | nil => intro a _ g hg; cases hg
  | cons e rest ih =>
    intro a hsub g hg x hxg y hyg
    by_cases he : e.id ∈ a
    · rw [goGroups, if_pos he] at hg
      exact ih a (fun z hz => hsub z (List.mem_cons_of_mem e hz)) g hg x hxg y hyg
    · rw [goGroups, if_neg he] at hg
      rcases List.mem_cons.mp hg with rfl | hg2
      · have hroot : ∀ z ∈ (bfsLoop sorted [e] (a ++ [e.id])).1, OverlapChain sorted e z := by
          refine bfs_chain sorted e [e] (a ++ [e.id]) ?_ ?_
          · intro q hq
            exact (List.mem_singleton.mp hq) ▸ hsub e (List.mem_cons_self e rest)
          · intro q hq
            exact (List.mem_singleton.mp hq) ▸ Relation.ReflTransGen.refl
        exact Relation.ReflTransGen.trans (hroot x hxg).symm (hroot y hyg)
      · exact ih _ (fun z hz => hsub z (List.mem_cons_of_mem e hz)) g hg2 x hxg y hyg

/-- BFS clustering groups are nonempty. -/
theorem goGroups_nonempty (sorted : List CalendarEvent) :
    ∀ (remaining : List CalendarEvent) (a : List String),
      ∀ g ∈ goGroups sorted remaining a, g ≠ [] := by
  intro remaining
  induction remaining with
  | nil => intro a g hg; cases hg
  | cons e rest ih =>
    intro a g hg
    by_cases he : e.id ∈ a
    · rw [goGroups, if_pos he] at hg
      exact ih a g hg
    · rw [goGroups, if_neg he] at hg
      rcases List.mem_cons.mp hg with rfl | hg2
      · rw [bfsLoop]
        exact List.cons_ne_nil _ _
      · exact ih _ g hg2

/-- A family of parts clusters a list when the parts cover exactly the
list's members, are nonempty, are pairwise free of cross overlaps, and
are internally chain-connected through the list. -/
def IsClusterPartition (l : List CalendarEvent) (parts : List (List CalendarEvent)) : Prop :=
  (∀ x, x ∈ parts.flatten ↔ x ∈ l) ∧
  (∀ p ∈ parts, p ≠ []) ∧
  parts.Pairwise (fun p q => ∀ x ∈ p, ∀ y ∈ q, eventsOverlap x y = false) ∧
  (∀ p ∈ parts, ∀ x ∈ p, ∀ y ∈ p, OverlapChain l x y)

/-- A chain starting inside a part of a cluster partition stays in
that part. -/
theorem chain_same_part (l : List CalendarEvent) (parts : List (List CalendarEvent))
    (hcp : IsClusterPartition l parts) (p : List CalendarEvent) (hp : p ∈ parts)
    (x : CalendarEvent) (hx : x ∈ p) (y : CalendarEvent)
    (hch : OverlapChain l x y) : y ∈ p := by
  induction hch with
  | refl => exact hx
  | tail hch2 hstep ih =>
    rename_i b c
    obtain ⟨hb, hc, hov⟩ := hstep
    obtain ⟨q, hq, hcq⟩ := List.mem_flatten.mp ((hcp.1 c).mpr hc)
    by_cases hpq : p = q
    · exact hpq ▸ hcq
    · exfalso
      have hsym : ∀ {u v : List CalendarEvent},
          (∀ a ∈ u, ∀ b2 ∈ v, eventsOverlap a b2 = false) →
          (∀ a ∈ v, ∀ b2 ∈ u, eventsOverlap a b2 = false) := by
        intro u v h a ha b2 hb2
        rw [eventsOverlap_comm]
        exact h b2 hb2 a ha
      have hsep := List.Pairwise.forall (fun {u v} h => hsym h) hcp.2.2.1 hp hq hpq b ih c hcq
      exact absurd (hsep.symm.trans hov) (by decide)

/-- Any two cluster partitions of one list agree as families of sets:
each part of one is, as a set, a part of the other. -/
theorem cluster_partition_unique (l : List CalendarEvent)
    (P1 P2 : List (List CalendarEvent))
    (h1 : IsClusterPartition l P1) (h2 : IsClusterPartition l P2) :
    ∀ p ∈ P1, ∃ q ∈ P2, ∀ x, x ∈ p ↔ x ∈ q := by
  intro p hp
  obtain ⟨x0, hx0⟩ := List.exists_mem_of_ne_nil p (h1.2.1 p hp)
  have hx0l : x0 ∈ l := (h1.1 x0).mp (List.mem_flatten.mpr ⟨p, hp, hx0⟩)
  obtain ⟨q, hq, hx0q⟩ := List.mem_flatten.mp ((h2.1 x0).mpr hx0l)
  refine ⟨q, hq, fun x => ⟨?_, ?_⟩⟩
  · intro hxp
    exact chain_same_part l P2 h2 q hq x0 hx0q x (h1.2.2.2 p hp x0 hx0 x hxp)
  · intro hxq
    exact chain_same_part l P1 h1 p hp x0 hx0 x (h2.2.2.2 q hq x0 hx0q x hxq)

/-- Groups of findOverlapGroups are nonempty. -/
theorem findOverlapGroups_group_nonempty (events : List CalendarEvent) :
    ∀ G ∈ findOverlapGroups events, G.events ≠ [] := by
  intro G hG
  cases hs : sortStart events with
  | nil =>
    have hz : findOverlapGroups events = [] := by rw [findOverlapGroups, hs]
    rw [hz] at hG
    cases hG
  | cons e0 rest =>
    have hz : findOverlapGroups events = sweepGroups rest [e0] e0.stop := by
      rw [findOverlapGroups, hs]
    rw [hz] at hG
    exact sweepGroups_nonempty rest [e0] e0.stop (List.cons_ne_nil e0 []) G hG

/-- findOverlapGroups yields a cluster partition for events of
positive duration. -/
theorem findOverlapGroups_clusters (events : List CalendarEvent)
    (hse : ∀ e ∈ events, e.start < e.stop) :
    IsClusterPartition events ((findOverlapGroups events).map StackGroup.events) := by
  obtain ⟨hperm, hpair, hchain⟩ := findOverlapGroups_props events hse
  refine ⟨fun x => hperm.mem_iff, ?_, ?_, ?_⟩
  · intro p hp
    obtain ⟨G, hG, rfl⟩ := List.mem_map.mp hp
    exact findOverlapGroups_group_nonempty events G hG
  · exact List.pairwise_map.mpr hpair
  · intro p hp x hx y hy
    obtain ⟨G, hG, rfl⟩ := List.mem_map.mp hp
    exact (hchain G hG x hx y hy).mono (group_mem_sub events G hG)

/-- groupOverlappingEvents yields a cluster partition for events with
unique ids. -/
theorem groupOverlappingEvents_clusters (events : List CalendarEvent)
    (hnd : (events.map (fun e => e.id)).Nodup) :
    IsClusterPartition events (groupOverlappingEvents events) := by
  by_cases h : events = []
  · subst h
    refine ⟨?_, ?_, ?_, ?_⟩ <;> simp [groupOverlappingEvents]
  · have hge : groupOverlappingEvents events
        = goGroups (sortStart events) (sortStart events) [] := by
      rw [groupOverlappingEvents, if_neg h]
    have hperm : List.Perm (sortStart events) events := List.perm_insertionSort _ _
    have hnds : ((sortStart events).map (fun e => e.id)).Nodup :=
      ((hperm.map (fun e => e.id)).nodup_iff).mpr hnd
    have hsub : ∀ x ∈ sortStart events, x ∈ sortStart events := fun x hx => hx
    refine ⟨?_, ?_, ?_, ?_⟩
    · intro x
      rw [hge]
      constructor
      · intro hx
        obtain ⟨p, hp, hxp⟩ := List.mem_flatten.mp hx
        exact hperm.mem_iff.mp (goGroups_members_sub _ _ _ hsub p hp x hxp)
      · intro hx
        rcases goGroups_covers _ hnds _ [] hsub x (hperm.mem_iff.mpr hx) with h2 | h2
        · exact h2
        · cases h2
    · intro p hp
      rw [hge] at hp
      exact goGroups_nonempty _ _ _ p hp
    · rw [hge]
      exact goGroups_pairwise _ _ _ hsub
    · intro p hp x hx y hy
      rw [hge] at hp
      exact (goGroups_chain _ _ _ hsub p hp x hx y hy).mono
        (fun z hz => hperm.mem_iff.mp hz)

/-- Claim C9: for events of positive duration with unique ids, the
sweep-based clustering findOverlapGroups and the search-based legacy
clustering groupOverlappingEvents produce the same partition of the
events into overlap clusters, equal as families of event sets: each
group of either algorithm has, as a set of events, a matching group of
the other. -/
theorem clustering_equivalence (events : List CalendarEvent)
    (hse : ∀ e ∈ events, e.start < e.stop)
    (hnd : (events.map (fun e => e.id)).Nodup) :
    (∀ G ∈ findOverlapGroups events, ∃ g ∈ groupOverlappingEvents events,
      ∀ x, x ∈ G.events ↔ x ∈ g) ∧
    (∀ g ∈ groupOverlappingEvents events, ∃ G ∈ findOverlapGroups events,
      ∀ x, x ∈ g ↔ x ∈ G.events) := by
  have h1 := findOverlapGroups_clusters events hse
  have h2 := groupOverlappingEvents_clusters events hnd
  constructor
  · intro G hG
    exact cluster_partition_unique events _ _ h1 h2 G.events
      (List.mem_map_of_mem StackGroup.events hG)
  · intro g hg
    obtain ⟨p, hp, hiff⟩ := cluster_partition_unique events _ _ h2 h1 g hg
    obtain ⟨G, hG, rfl⟩ := List.mem_map.mp hp
    exact ⟨G, hG, hiff⟩

/-- The clustering equivalence instantiated on three concrete events:
two overlapping and one apart, with positive durations and distinct
ids. -/
theorem clustering_equivalence_witness :
    (∀ e ∈ witEvents, e.start < e.stop) ∧
    (witEvents.map (fun e => e.id)).Nodup ∧
    ((∀ G ∈ findOverlapGroups witEvents, ∃ g ∈ groupOverlappingEvents witEvents,
      ∀ x, x ∈ G.events ↔ x ∈ g) ∧
    (∀ g ∈ groupOverlappingEvents witEvents, ∃ G ∈ findOverlapGroups witEvents,
      ∀ x, x ∈ g ↔ x ∈ G.events)) :=
  ⟨by decide, by decide, clustering_equivalence witEvents (by decide) (by decide)⟩
